import Mathlib

/- Verification of the circular_buffer container of circular-buffer.h.
   The buffer owns a single block of capacity_ raw slots; slots outside the
   live window are uninitialized memory, modelled by the default value of the
   element type (the container never reads them).  Logical index i lives at
   physical slot (begin_ + i) % capacity_.  Iterators carry an absolute
   position pos_ = begin_ + logical index and dereference through
   data_[pos_ % capacity_]. -/

namespace CircSpec

variable {α : Type} [Inhabited α]

/-- Exchange of the entries of a list at positions p and q, both values read
before either write, as a std swap of two slots does; out-of-range sets are
no-ops, matching that such calls never occur in the verified paths. -/
def lswap (l : List α) (p q : Nat) : List α :=
  (l.set p (l.getD q default)).set q (l.getD p default)

/-- One left rotation of a list: the head moves to the back. -/
def rot1 : List α → List α
  | [] => []
  | x :: xs => xs ++ [x]

/-- Model of std uninitialized_copy writing the value list vals through a
destination buffer iterator: the iterator at absolute position dpos writes
slot dpos % dcap of the block dst and is incremented after each write. -/
def copyInto (dst : List α) (dcap : Nat) : Nat → List α → List α
  | _, [] => dst
  | dpos, v :: vs => copyInto (dst.set (dpos % dcap) v) dcap (dpos + 1) vs

/-- State of a circular_buffer: data_ models the owned block of capacity_
slots (the empty list models the null block), size_ the live count and
begin_ the physical index of the first live element. -/
structure circular_buffer (α : Type) where
  data_ : List α
  size_ : Nat
  capacity_ : Nat
  begin_ : Nat
deriving DecidableEq

/-- Default constructor: no block, all counters zero. -/
def emptyCB : circular_buffer α :=
  { data_ := [], size_ := 0, capacity_ := 0, begin_ := 0 }

/-- Private constructor circular_buffer(capacity): allocates a block of
exactly capacity raw slots (null when capacity is 0); size_ and begin_ keep
their member-initializer value 0. -/
def mkCap (cap : Nat) : circular_buffer α :=
  { data_ := List.replicate cap default, size_ := 0, capacity_ := cap, begin_ := 0 }

/-- Element at logical index i, as operator[] reads it:
data_[(begin_ + index) % capacity()]. -/
def getIdx (c : circular_buffer α) (i : Nat) : α :=
  c.data_.getD ((c.begin_ + i) % c.capacity_) default

/-- The logical front-to-back sequence of live elements. -/
def logical (c : circular_buffer α) : List α :=
  (List.range c.size_).map (getIdx c)

/-- Dereference of an iterator with absolute position p over the buffer c:
data_[pos_ % capacity]. -/
def iterDeref (c : circular_buffer α) (p : Nat) : α :=
  c.data_.getD (p % c.capacity_) default

/-- Value read by back(): data_[(begin_ + size() - 1) % capacity()]. -/
def backVal (c : circular_buffer α) : α :=
  c.data_.getD ((c.begin_ + c.size_ - 1) % c.capacity_) default

/-- Structural well-formedness used as a hypothesis: the block has exactly
capacity_ slots and at most capacity_ of them are live. -/
def WF (c : circular_buffer α) : Prop :=
  c.data_.length = c.capacity_ ∧ c.size_ ≤ c.capacity_

instance (c : circular_buffer Nat) : Decidable (WF c) := by
  unfold WF; infer_instance

/-- insert_with_copy pos val with idx = pos - begin(): builds the side
buffer tmp of capacity max(1, 2*capacity), copies the run before idx to
tmp physical 0..idx-1, constructs val at slot (tmp.begin_ + idx) % tmp cap,
copies the run from idx onward behind it, sets tmp size to size()+1, swaps
tmp into this and returns the iterator begin() + idx, whose pos_ is idx
because the new begin_ is 0. -/
def insert_with_copy (c : circular_buffer α) (idx : Nat) (v : α) :
    circular_buffer α × Nat :=
  let tmp : circular_buffer α := mkCap (if c.capacity_ = 0 then 1 else c.capacity_ * 2)
  let d1 := copyInto tmp.data_ tmp.capacity_ tmp.begin_ ((logical c).take idx)
  let d2 := d1.set ((tmp.begin_ + idx) % tmp.capacity_) v
  let d3 := copyInto d2 tmp.capacity_ (idx + 1) ((logical c).drop idx)
  ({ data_ := d3, size_ := c.size_ + 1, capacity_ := tmp.capacity_, begin_ := 0 }, idx)

/-- push_back: construct at slot (begin_ + size()) % capacity() and bump
size_, growing through insert_with_copy at end() when full. -/
def push_back (c : circular_buffer α) (v : α) : circular_buffer α :=
  if c.size_ = c.capacity_ then (insert_with_copy c c.size_ v).1
  else
    { c with data_ := c.data_.set ((c.begin_ + c.size_) % c.capacity_) v,
             size_ := c.size_ + 1 }

/-- push_front: construct at slot (begin_ + capacity() - 1) % capacity(),
then move begin_ there and bump size_, growing through insert_with_copy at
begin() when full. -/
def push_front (c : circular_buffer α) (v : α) : circular_buffer α :=
  if c.size_ = c.capacity_ then (insert_with_copy c 0 v).1
  else
    let nb := (c.begin_ + c.capacity_ - 1) % c.capacity_
    { c with data_ := c.data_.set nb v, begin_ := nb, size_ := c.size_ + 1 }

/-- pop_back: destroy the back element (its slot keeps its bytes, which the
model keeps as the junk value already there) and decrement size_. -/
def pop_back (c : circular_buffer α) : circular_buffer α :=
  { c with size_ := c.size_ - 1 }

/-- pop_front: destroy the front element, advance begin_ modulo capacity
and decrement size_. -/
def pop_front (c : circular_buffer α) : circular_buffer α :=
  { c with begin_ := (c.begin_ + 1) % c.capacity_, size_ := c.size_ - 1 }

/-- m consecutive pop_front calls. -/
def popFrontN (c : circular_buffer α) : Nat → circular_buffer α
  | 0 => c
  | m + 1 => popFrontN (pop_front c) m

/-- m consecutive pop_back calls. -/
def popBackN (c : circular_buffer α) : Nat → circular_buffer α
  | 0 => c
  | m + 1 => popBackN (pop_back c) m

/-- std iter_swap of the iterators at logical indices i and j: swaps the
slots (begin_ + i) % capacity and (begin_ + j) % capacity. -/
def swapAt (c : circular_buffer α) (i j : Nat) : circular_buffer α :=
  { c with data_ := lswap c.data_ ((c.begin_ + i) % c.capacity_) ((c.begin_ + j) % c.capacity_) }

/-- The rotation loop of the front branch of insert: cur starts at begin(),
each step swaps cur with cur + 1 and advances cur, cnt times. -/
def insFrontLoop : circular_buffer α → Nat → Nat → circular_buffer α
  | c, _, 0 => c
  | c, cur, cnt + 1 => insFrontLoop (swapAt c cur (cur + 1)) (cur + 1) cnt

/-- The rotation loop of the back branch of insert: cur starts at
end() - 1, each step swaps cur with cur - 1 and retreats cur, cnt times. -/
def insBackLoop : circular_buffer α → Nat → Nat → circular_buffer α
  | c, _, 0 => c
  | c, cur, cnt + 1 => insBackLoop (swapAt c cur (cur - 1)) (cur - 1) cnt

/-- insert pos val with idx = pos - begin(): delegates to insert_with_copy
when full; otherwise pushes onto the nearer end (front exactly when
pos - begin() < end() - pos, a signed ptrdiff comparison) and rotates the
new element into place, returning begin() + idx, an iterator whose pos_ is
the final begin_ plus idx. -/
def insert (c : circular_buffer α) (idx : Nat) (v : α) : circular_buffer α × Nat :=
  if c.size_ = c.capacity_ then
    insert_with_copy c idx v
  else if (idx : ℤ) < (c.size_ : ℤ) - (idx : ℤ) then
    let c1 := push_front c v
    let c2 := insFrontLoop c1 0 idx
    (c2, c2.begin_ + idx)
  else
    let c1 := push_back c v
    let c2 := insBackLoop c1 (c1.size_ - 1) (c1.size_ - idx - 1)
    (c2, c2.begin_ + idx)

/-- The branch test of the non-full path of insert: true exactly when the
code pushes the new element onto the front end. -/
def insertUsesFront (c : circular_buffer α) (idx : Nat) : Bool :=
  decide ((idx : ℤ) < (c.size_ : ℤ) - (idx : ℤ))

/-- The loop of the front branch of erase: while first > begin(), decrement
first and last and swap the slots they address; f counts how many steps
remain (initially first - begin()) and m is last - first. -/
def eraseFrontLoop : circular_buffer α → Nat → Nat → circular_buffer α
  | c, 0, _ => c
  | c, f + 1, m => eraseFrontLoop (swapAt c f (f + m)) f m

/-- The loop of the back branch of erase: while last < end(), swap the
slots at first and last and advance both; j is first - begin() and cnt the
number of remaining steps (initially end() - last). -/
def eraseBackLoop : circular_buffer α → Nat → Nat → Nat → circular_buffer α
  | c, _, 0, _ => c
  | c, j, cnt + 1, m => eraseBackLoop (swapAt c j (j + m)) (j + 1) cnt m

/-- erase first last with k = first - begin() and m = last - first: moves
the doomed range toward the nearer end by adjacent slot swaps (front branch
exactly when first - begin() < end() - last, signed comparison), pops that
many elements off that end and returns begin() + k over the final state. -/
def erase (c : circular_buffer α) (k m : Nat) : circular_buffer α × Nat :=
  if (k : ℤ) < (c.size_ : ℤ) - ((k + m : Nat) : ℤ) then
    let c1 := eraseFrontLoop c k m
    let c2 := popFrontN c1 m
    (c2, c2.begin_ + k)
  else
    let c1 := eraseBackLoop c k (c.size_ - (k + m)) m
    let c2 := popBackN c1 m
    (c2, c2.begin_ + k)

/-- reserve n: when n exceeds the capacity, builds a side buffer of exactly
n slots, copies the live run to its physical offset 0 (its begin_ is 0),
sets its size and swaps it in; otherwise does nothing. -/
def reserve (c : circular_buffer α) (n : Nat) : circular_buffer α :=
  if n > c.capacity_ then
    let tmp : circular_buffer α := mkCap n
    { data_ := copyInto tmp.data_ tmp.capacity_ tmp.begin_ (logical c),
      size_ := c.size_, capacity_ := tmp.capacity_, begin_ := tmp.begin_ }
  else c

/-- Copy constructor: allocates a block of the same capacity, adopts the
same begin_, copies the live run through its own begin() iterator (writing
the same physical slots as the source) and adopts the size. -/
def copy_construct (c : circular_buffer α) : circular_buffer α :=
  let fresh : circular_buffer α := mkCap c.capacity_
  { data_ := copyInto fresh.data_ fresh.capacity_ c.begin_ (logical c),
    size_ := c.size_, capacity_ := c.capacity_, begin_ := c.begin_ }

/-- Copy assignment: same models the pointer test this == &other; when they
differ, a copy of other is built and swapped into this. -/
def copy_assign (same : Bool) (c other : circular_buffer α) : circular_buffer α :=
  if same then c else copy_construct other

/-- Number of block allocations performed by copy assignment: none on
self-assignment, and the one done by the copy constructor otherwise (its
private constructor allocates exactly when the capacity is nonzero). -/
def copy_assign_allocs (same : Bool) (other : circular_buffer α) : Nat :=
  if same then 0 else if other.capacity_ = 0 then 0 else 1

/-- clear: pop_back until empty; the loop runs exactly size_ times. -/
def clear (c : circular_buffer α) : circular_buffer α :=
  popBackN c c.size_

/-- The clear loop of the destructor with an explicit fuel (instantiated
with size_): each iteration destroys back() and pops it. -/
def clearTraceN : circular_buffer α → Nat → List α
  | _, 0 => []
  | c, n + 1 => if c.size_ = 0 then [] else backVal c :: clearTraceN (pop_back c) n

/-- Destructor observation: the values destroyed in order by clear(),
paired with the number of operator delete calls on the block (one). -/
def destruct (c : circular_buffer α) : List α × Nat :=
  (clearTraceN c c.size_, 1)

/-- Fallible uninitialized_copy: ok says whether copy-constructing a given
value succeeds; on the first failure the partially built prefix is
destroyed again (the model drops it) and the failure propagates. -/
def copyIntoE (ok : α → Bool) (dst : List α) (dcap : Nat) :
    Nat → List α → Option (List α)
  | _, [] => some dst
  | dpos, v :: vs =>
    if ok v then copyIntoE ok (dst.set (dpos % dcap) v) dcap (dpos + 1) vs
    else none

/-- insert_with_copy with failure oracles: allocOk says whether a block of
a given size can be allocated.  Every fallible step happens on the side
buffer tmp before the final nothrow swap, so a failure propagates with the
original instance untouched (error carries the state of this at the point
the exception escapes). -/
def insert_with_copyE (allocOk : Nat → Bool) (ok : α → Bool)
    (c : circular_buffer α) (idx : Nat) (v : α) :
    Except (circular_buffer α) (circular_buffer α × Nat) :=
  if allocOk (if c.capacity_ = 0 then 1 else c.capacity_ * 2) then
    match copyIntoE ok
        (List.replicate (if c.capacity_ = 0 then 1 else c.capacity_ * 2) default)
        (if c.capacity_ = 0 then 1 else c.capacity_ * 2) 0 ((logical c).take idx) with
    | none => .error c
    | some d1 =>
      if ok v then
        match copyIntoE ok
            (d1.set ((0 + idx) % (if c.capacity_ = 0 then 1 else c.capacity_ * 2)) v)
            (if c.capacity_ = 0 then 1 else c.capacity_ * 2) (idx + 1)
            ((logical c).drop idx) with
        | none => .error c
        | some d3 =>
          .ok ({ data_ := d3, size_ := c.size_ + 1,
                 capacity_ := (if c.capacity_ = 0 then 1 else c.capacity_ * 2),
                 begin_ := 0 }, idx)
      else .error c
  else .error c

/-- push_back with failure oracles: the non-growth path constructs the new
element before incrementing size_, so a failed construction leaves the
state untouched. -/
def push_backE (allocOk : Nat → Bool) (ok : α → Bool)
    (c : circular_buffer α) (v : α) :
    Except (circular_buffer α) (circular_buffer α) :=
  if c.size_ = c.capacity_ then (insert_with_copyE allocOk ok c c.size_ v).map Prod.fst
  else if ok v then
    .ok { c with data_ := c.data_.set ((c.begin_ + c.size_) % c.capacity_) v,
                 size_ := c.size_ + 1 }
  else .error c

/-- push_front with failure oracles: the non-growth path constructs at the
new slot before begin_ and size_ are updated, so a failed construction
leaves the state untouched. -/
def push_frontE (allocOk : Nat → Bool) (ok : α → Bool)
    (c : circular_buffer α) (v : α) :
    Except (circular_buffer α) (circular_buffer α) :=
  if c.size_ = c.capacity_ then (insert_with_copyE allocOk ok c 0 v).map Prod.fst
  else if ok v then
    let nb := (c.begin_ + c.capacity_ - 1) % c.capacity_
    .ok { c with data_ := c.data_.set nb v, begin_ := nb, size_ := c.size_ + 1 }
  else .error c

/-- reserve with failure oracles: allocation and all copies target the side
buffer, which is torn down on failure; the swap happens only after
everything succeeded. -/
def reserveE (allocOk : Nat → Bool) (ok : α → Bool)
    (c : circular_buffer α) (n : Nat) :
    Except (circular_buffer α) (circular_buffer α) :=
  if n > c.capacity_ then
    if allocOk n then
      match copyIntoE ok (List.replicate n default) n 0 (logical c) with
      | none => .error c
      | some d =>
        .ok { data_ := d, size_ := c.size_, capacity_ := n, begin_ := 0 }
    else .error c
  else .ok c

/-- A concrete wrapped buffer used by the witnesses: capacity 4, begin
offset 2, live run 3, logical sequence [3, 4, 1]. -/
def cb0 : circular_buffer Nat :=
  { data_ := [1, 2, 3, 4], size_ := 3, capacity_ := 4, begin_ := 2 }

/-- A concrete full wrapped buffer: capacity 4, begin offset 2, logical
sequence [3, 4, 1, 2]. -/
def cbFull : circular_buffer Nat :=
  { data_ := [1, 2, 3, 4], size_ := 4, capacity_ := 4, begin_ := 2 }

/-- A concrete flat full buffer: capacity 2, logical sequence [1, 2]. -/
def cb2 : circular_buffer Nat :=
  { data_ := [1, 2], size_ := 2, capacity_ := 2, begin_ := 0 }

/-- n sequential push_back calls on a default-constructed buffer. -/
def pushSeq : Nat → circular_buffer Nat
  | 0 => emptyCB
  | n + 1 => push_back (pushSeq n) n

/-- States reachable from a default-constructed buffer by valid public
operations (pop only on a nonempty buffer, insert at a position between
begin() and end(), erase of a range inside the live window).  The friend
swap only exchanges the two argument states, so it creates no new states
and needs no constructor. -/
inductive Reachable : circular_buffer α → Prop where
  | init : Reachable emptyCB
  | push_back_step (c : circular_buffer α) (v : α) :
      Reachable c → Reachable (push_back c v)
  | push_front_step (c : circular_buffer α) (v : α) :
      Reachable c → Reachable (push_front c v)
  | pop_back_step (c : circular_buffer α) :
      Reachable c → c.size_ ≠ 0 → Reachable (pop_back c)
  | pop_front_step (c : circular_buffer α) :
      Reachable c → c.size_ ≠ 0 → Reachable (pop_front c)
  | insert_step (c : circular_buffer α) (idx : Nat) (v : α) :
      Reachable c → idx ≤ c.size_ → Reachable (insert c idx v).1
  | erase_step (c : circular_buffer α) (k m : Nat) :
      Reachable c → k + m ≤ c.size_ → Reachable (erase c k m).1
  | reserve_step (c : circular_buffer α) (n : Nat) :
      Reachable c → Reachable (reserve c n)
  | clear_step (c : circular_buffer α) :
      Reachable c → Reachable (clear c)
  | copy_step (c : circular_buffer α) :
      Reachable c → Reachable (copy_construct c)
  | assign_step (c other : circular_buffer α) (same : Bool) :
      Reachable c → Reachable other → Reachable (copy_assign same c other)

/-- The list-level mirror of insFrontLoop, acting on the logical
sequence. -/
def insFrontLoopL : List α → Nat → Nat → List α
  | l, _, 0 => l
  | l, cur, cnt + 1 => insFrontLoopL (lswap l cur (cur + 1)) (cur + 1) cnt

/-- The list-level mirror of insBackLoop. -/
def insBackLoopL : List α → Nat → Nat → List α
  | l, _, 0 => l
  | l, cur, cnt + 1 => insBackLoopL (lswap l cur (cur - 1)) (cur - 1) cnt

/-- The list-level mirror of eraseFrontLoop. -/
def eraseFrontLoopL : List α → Nat → Nat → List α
  | l, 0, _ => l
  | l, f + 1, m => eraseFrontLoopL (lswap l f (f + m)) f m

/-- The list-level mirror of eraseBackLoop. -/
def eraseBackLoopL : List α → Nat → Nat → Nat → List α
  | l, _, 0, _ => l
  | l, j, cnt + 1, m => eraseBackLoopL (lswap l j (j + m)) (j + 1) cnt m

end CircSpec

namespace CircSpec

set_option linter.unusedSectionVars false

variable {α : Type} [Inhabited α]

theorem getD_set_self {l : List α} {p : Nat} (a d : α) (h : p < l.length) :
    (l.set p a).getD p d = a := by
  induction l generalizing p with
  | nil => simp at h
  | cons x xs ih =>
    cases p with
    | zero => simp
    | succ p => simpa using ih (Nat.lt_of_succ_lt_succ h)

theorem getD_set_ne {l : List α} {p q : Nat} (a d : α) (h : p ≠ q) :
    (l.set p a).getD q d = l.getD q d := by
  induction l generalizing p q with
  | nil => simp
  | cons x xs ih =>
    cases p with
    | zero =>
      cases q with
      | zero => exact absurd rfl h
      | succ q => simp
    | succ p =>
      cases q with
      | zero => simp
      | succ q => simpa using ih (fun hpq => h (by simp [hpq]))

theorem set_getD_self (l : List α) (p : Nat) (d : α) :
    l.set p (l.getD p d) = l := by
  induction l generalizing p with
  | nil => simp
  | cons x xs ih =>
    cases p with
    | zero => simp
    | succ p => simpa using ih p

theorem eq_of_getD (d : α) : ∀ (l1 l2 : List α), l1.length = l2.length →
    (∀ t, t < l1.length → l1.getD t d = l2.getD t d) → l1 = l2
  | [], [], _, _ => rfl
  | [], _ :: _, h, _ => by simp at h
  | _ :: _, [], h, _ => by simp at h
  | a :: l1, b :: l2, h, he => by
    have h0 := he 0 (Nat.succ_pos _)
    simp at h0
    have hrec := eq_of_getD d l1 l2 (by simpa using h)
      (fun t ht => by simpa using he (t + 1) (by simpa using ht))
    simp [h0, hrec]

theorem getD_take {l : List α} {k t : Nat} (d : α) (h : t < k) :
    (l.take k).getD t d = l.getD t d := by
  induction l generalizing k t with
  | nil => simp
  | cons x xs ih =>
    cases k with
    | zero => exact absurd h (Nat.not_lt_zero t)
    | succ k =>
      cases t with
      | zero => simp
      | succ t => simpa using ih (Nat.lt_of_succ_lt_succ h)

theorem getD_drop (l : List α) (m t : Nat) (d : α) :
    (l.drop m).getD t d = l.getD (m + t) d := by
  induction l generalizing m with
  | nil => simp
  | cons x xs ih =>
    cases m with
    | zero => simp
    | succ m => simpa [Nat.succ_add] using ih m

theorem getD_append_length (A : List α) (b : α) (B : List α) (d : α) :
    (A ++ b :: B).getD A.length d = b := by
  rw [List.getD_append_right A (b :: B) d A.length (Nat.le_refl _)]
  simp

theorem set_append_length (A : List α) (b x : α) (B : List α) :
    (A ++ b :: B).set A.length x = A ++ x :: B := by
  induction A with
  | nil => simp
  | cons a A ih => simp [ih]

theorem add_mod_inj {cap b i j : Nat} (hi : i < cap) (hj : j < cap)
    (h : (b + i) % cap = (b + j) % cap) : i = j := by
  have h1 : i ≡ j [MOD cap] := Nat.ModEq.add_left_cancel' b h
  have h2 : i % cap = j % cap := h1
  rwa [Nat.mod_eq_of_lt hi, Nat.mod_eq_of_lt hj] at h2

theorem lswap_length (l : List α) (p q : Nat) :
    (lswap l p q).length = l.length := by
  simp [lswap]

theorem lswap_self (l : List α) (p : Nat) :
    lswap l p p = l := by
  unfold lswap
  rw [List.set_set, set_getD_self]

theorem lswap_comm (l : List α) (p q : Nat) :
    lswap l p q = lswap l q p := by
  by_cases h : p = q
  · subst h; rfl
  · unfold lswap
    exact List.set_comm _ _ l h

theorem lswap_block (M : List α) (b : α) : ∀ (A B : List α),
    lswap (A ++ M ++ b :: B) A.length (A.length + M.length) =
      A ++ b :: rot1 M ++ B := by
  induction M with
  | nil =>
    intro A B
    simpa [rot1] using lswap_self (A ++ b :: B) A.length
  | cons x M _ =>
    intro A B
    have hget1 : (A ++ (x :: M) ++ b :: B).getD (A.length + (x :: M).length) default = b := by
      have : A ++ (x :: M) ++ b :: B = (A ++ x :: M) ++ b :: B := by simp
      rw [this]
      have hlen : (A ++ x :: M).length = A.length + (x :: M).length := by simp
      rw [← hlen]
      exact getD_append_length _ b B default
    have hget2 : (A ++ (x :: M) ++ b :: B).getD A.length default = x := by
      have : A ++ (x :: M) ++ b :: B = A ++ x :: (M ++ b :: B) := by simp
      rw [this]
      exact getD_append_length A x (M ++ b :: B) default
    unfold lswap
    rw [hget1, hget2]
    have hs1 : (A ++ (x :: M) ++ b :: B).set A.length b = A ++ b :: (M ++ b :: B) := by
      have : A ++ (x :: M) ++ b :: B = A ++ x :: (M ++ b :: B) := by simp
      rw [this]
      exact set_append_length A x b (M ++ b :: B)
    rw [hs1]
    have hs2 : (A ++ b :: (M ++ b :: B)).set (A.length + (x :: M).length) x =
        A ++ b :: (M ++ x :: B) := by
      have h1 : A ++ b :: (M ++ b :: B) = (A ++ b :: M) ++ b :: B := by simp
      have h2 : A.length + (x :: M).length = (A ++ b :: M).length := by simp
      rw [h1, h2, set_append_length]
      simp
    rw [hs2]
    simp [rot1]

theorem rot1_length (M : List α) : (rot1 M).length = M.length := by
  cases M with
  | nil => rfl
  | cons x xs => simp [rot1]

theorem insFrontLoopL_spec : ∀ (cnt : Nat) (A : List α) (x : α) (D : List α),
    cnt ≤ D.length →
    insFrontLoopL (A ++ x :: D) A.length cnt =
      A ++ D.take cnt ++ x :: D.drop cnt := by
  intro cnt
  induction cnt with
  | zero => intro A x D _; simp [insFrontLoopL]
  | succ cnt ih =>
    intro A x D hle
    cases D with
    | nil => simp at hle
    | cons d D =>
      have hstep : insFrontLoopL (A ++ x :: d :: D) A.length (cnt + 1) =
          insFrontLoopL (lswap (A ++ x :: d :: D) A.length (A.length + 1)) (A.length + 1) cnt := by
        rfl
      have hsw : lswap (A ++ x :: d :: D) A.length (A.length + 1) =
          A ++ d :: x :: D := by
        have hb := lswap_block [x] d A D
        simpa [rot1] using hb
      rw [hstep, hsw]
      have hA : A.length + 1 = (A ++ [d]).length := by simp
      have hshape : A ++ d :: x :: D = (A ++ [d]) ++ x :: D := by simp
      rw [hshape, hA, ih (A ++ [d]) x D (Nat.le_of_succ_le_succ hle)]
      simp

theorem insBackLoopL_spec : ∀ (cnt : Nat) (C : List α) (x : α) (D : List α),
    cnt ≤ C.length →
    insBackLoopL (C ++ x :: D) C.length cnt =
      C.take (C.length - cnt) ++ x :: (C.drop (C.length - cnt) ++ D) := by
  intro cnt
  induction cnt with
  | zero => intro C x D _; simp [insBackLoopL]
  | succ cnt ih =>
    intro C x D hle
    rcases List.eq_nil_or_concat C with rfl | ⟨C', a, rfl⟩
    · simp at hle
    · rw [List.concat_eq_append] at *
      have hlen : (C' ++ [a]).length = C'.length + 1 := by simp
      have hstep : insBackLoopL ((C' ++ [a]) ++ x :: D) (C'.length + 1) (cnt + 1) =
          insBackLoopL (lswap ((C' ++ [a]) ++ x :: D) (C'.length + 1) C'.length)
            C'.length cnt := by
        rfl
      have hsw : lswap ((C' ++ [a]) ++ x :: D) (C'.length + 1) C'.length =
          C' ++ x :: a :: D := by
        rw [lswap_comm]
        have hb := lswap_block [a] x C' D
        have hshape : (C' ++ [a]) ++ x :: D = C' ++ [a] ++ x :: D := by simp
        rw [hshape]
        simpa [rot1] using hb
      rw [hlen, hstep, hsw]
      have hle' : cnt ≤ C'.length := Nat.le_of_succ_le_succ (by simpa using hle)
      rw [ih C' x (a :: D) hle']
      have h1 : C'.length + 1 - (cnt + 1) = C'.length - cnt := by omega
      rw [h1]
      have h2 : (C' ++ [a]).take (C'.length - cnt) = C'.take (C'.length - cnt) :=
        List.take_append_of_le_length (Nat.sub_le _ _)
      have h3 : (C' ++ [a]).drop (C'.length - cnt) = C'.drop (C'.length - cnt) ++ [a] :=
        List.drop_append_of_le_length (Nat.sub_le _ _)
      rw [h2, h3]
      simp

theorem eraseFrontLoopL_spec : ∀ (A M B : List α), ∃ M',
    M'.length = M.length ∧
    eraseFrontLoopL (A ++ M ++ B) A.length M.length = M' ++ (A ++ B) := by
  intro A
  induction A using List.reverseRecOn with
  | nil =>
    intro M B
    exact ⟨M, rfl, by simp [eraseFrontLoopL]⟩
  | append_singleton A a ih =>
    intro M B
    have hlen : (A ++ [a]).length = A.length + 1 := by simp
    rcases List.eq_nil_or_concat M with rfl | ⟨M₀, x, rfl⟩
    · have hstep : eraseFrontLoopL ((A ++ [a]) ++ [] ++ B) (A.length + 1) 0 =
          eraseFrontLoopL (lswap ((A ++ [a]) ++ [] ++ B) A.length A.length)
            A.length 0 := by
        rfl
      obtain ⟨M', hM'len, hM'⟩ := ih [] (a :: B)
      refine ⟨M', hM'len, ?_⟩
      simp only [List.length_nil]
      rw [hlen, hstep, lswap_self]
      have hshape : (A ++ [a]) ++ [] ++ B = A ++ [] ++ (a :: B) := by simp
      rw [hshape]
      simp only [List.length_nil] at hM'
      rw [hM']
      simp
    · rw [List.concat_eq_append] at *
      have hm : (M₀ ++ [x]).length = M₀.length + 1 := by simp
      have hstep : eraseFrontLoopL ((A ++ [a]) ++ (M₀ ++ [x]) ++ B) (A.length + 1) (M₀.length + 1) =
          eraseFrontLoopL
            (lswap ((A ++ [a]) ++ (M₀ ++ [x]) ++ B) A.length (A.length + (M₀.length + 1)))
            A.length (M₀.length + 1) := by
        rfl
      have hsw : lswap ((A ++ [a]) ++ (M₀ ++ [x]) ++ B) A.length (A.length + (M₀.length + 1)) =
          A ++ (x :: M₀) ++ (a :: B) := by
        have hb := lswap_block (a :: M₀) x A B
        have hshape : (A ++ [a]) ++ (M₀ ++ [x]) ++ B = A ++ (a :: M₀) ++ x :: B := by simp
        have hl : (a :: M₀).length = M₀.length + 1 := by simp
        rw [hshape]
        rw [hl] at hb
        rw [hb]
        simp [rot1]
      obtain ⟨M', hM'len, hM'⟩ := ih (x :: M₀) (a :: B)
      refine ⟨M', ?_, ?_⟩
      · simpa using hM'len
      · rw [hlen, hm, hstep, hsw]
        have hl2 : (x :: M₀).length = M₀.length + 1 := by simp
        rw [hl2] at hM'
        rw [hM']
        simp

theorem eraseBackLoopL_spec : ∀ (B A M : List α), ∃ M',
    M'.length = M.length ∧
    eraseBackLoopL (A ++ M ++ B) A.length B.length M.length = (A ++ B) ++ M' := by
  intro B
  induction B with
  | nil =>
    intro A M
    exact ⟨M, rfl, by simp [eraseBackLoopL]⟩
  | cons b B ih =>
    intro A M
    have hstep : eraseBackLoopL (A ++ M ++ b :: B) A.length (B.length + 1) M.length =
        eraseBackLoopL (lswap (A ++ M ++ b :: B) A.length (A.length + M.length))
          (A.length + 1) B.length M.length := by
      rfl
    have hsw := lswap_block M b A B
    obtain ⟨M', hM'len, hM'⟩ := ih (A ++ [b]) (rot1 M)
    refine ⟨M', by rw [hM'len, rot1_length], ?_⟩
    simp only [List.length_cons]
    rw [hstep, hsw]
    have hshape : A ++ b :: rot1 M ++ B = (A ++ [b]) ++ rot1 M ++ B := by simp
    have hA1 : A.length + 1 = (A ++ [b]).length := by simp
    rw [hshape, hA1]
    rw [rot1_length] at hM'
    rw [hM']
    simp


theorem logical_length (c : circular_buffer α) : (logical c).length = c.size_ := by
  simp [logical]

theorem getD_logical (c : circular_buffer α) {t : Nat} (ht : t < c.size_) :
    (logical c).getD t default = getIdx c t := by
  have hlt : t < (logical c).length := by rwa [logical_length]
  rw [List.getD_eq_getElem (logical c) default hlt]
  simp [logical]

theorem swapAt_size (c : circular_buffer α) (i j : Nat) :
    (swapAt c i j).size_ = c.size_ := rfl

theorem swapAt_capacity (c : circular_buffer α) (i j : Nat) :
    (swapAt c i j).capacity_ = c.capacity_ := rfl

theorem swapAt_begin (c : circular_buffer α) (i j : Nat) :
    (swapAt c i j).begin_ = c.begin_ := rfl

theorem swapAt_data_length (c : circular_buffer α) (i j : Nat) :
    (swapAt c i j).data_.length = c.data_.length := lswap_length _ _ _

theorem swapAt_logical (c : circular_buffer α) (i j : Nat)
    (hlen : c.data_.length = c.capacity_) (hsz : c.size_ ≤ c.capacity_)
    (hi : i < c.size_) (hj : j < c.size_) :
    logical (swapAt c i j) = lswap (logical c) i j := by
  have hic : i < c.capacity_ := Nat.lt_of_lt_of_le hi hsz
  have hjc : j < c.capacity_ := Nat.lt_of_lt_of_le hj hsz
  have hcap : 0 < c.capacity_ := Nat.lt_of_le_of_lt (Nat.zero_le i) hic
  have hLlen : (logical c).length = c.size_ := logical_length c
  apply eq_of_getD default
  · rw [logical_length, lswap_length, logical_length, swapAt_size]
  · intro t ht
    rw [logical_length, swapAt_size] at ht
    have htc : t < c.capacity_ := Nat.lt_of_lt_of_le ht hsz
    have hswsz : (swapAt c i j).size_ = c.size_ := rfl
    rw [getD_logical (swapAt c i j) (by rwa [hswsz])]
    have hinj : ∀ u w : Nat, u < c.capacity_ → w < c.capacity_ →
        (c.begin_ + u) % c.capacity_ = (c.begin_ + w) % c.capacity_ → u = w :=
      fun u w hu hw h => add_mod_inj hu hw h
    have hmod : ∀ u : Nat, (c.begin_ + u) % c.capacity_ < c.data_.length := by
      intro u; rw [hlen]; exact Nat.mod_lt _ hcap
    have hgl : ∀ u : Nat, u < c.size_ → (logical c).getD u default = getIdx c u :=
      fun u hu => getD_logical c hu
    show (lswap c.data_ ((c.begin_ + i) % c.capacity_) ((c.begin_ + j) % c.capacity_)).getD
        ((c.begin_ + t) % c.capacity_) default = (lswap (logical c) i j).getD t default
    unfold lswap
    by_cases htj : t = j
    · subst htj
      rw [getD_set_self _ _ (by rw [List.length_set]; exact hmod t)]
      rw [getD_set_self _ _ (by rw [List.length_set, hLlen]; exact ht)]
      rw [hgl i hi]
      rfl
    · have hptj : (c.begin_ + t) % c.capacity_ ≠ (c.begin_ + j) % c.capacity_ :=
        fun h => htj (hinj t j htc hjc h)
      rw [getD_set_ne _ _ (Ne.symm hptj), getD_set_ne _ _ (fun h => htj h.symm)]
      by_cases hti : t = i
      · subst hti
        rw [getD_set_self _ _ (hmod t)]
        rw [getD_set_self _ _ (by rw [hLlen]; exact ht)]
        rw [hgl j hj]
        rfl
      · have hpti : (c.begin_ + i) % c.capacity_ ≠ (c.begin_ + t) % c.capacity_ :=
          fun h => hti (hinj t i htc hic h.symm)
        rw [getD_set_ne _ _ hpti, getD_set_ne _ _ (fun h => hti h.symm)]
        exact (hgl t ht).symm


theorem insFrontLoop_fields : ∀ (cnt : Nat) (c : circular_buffer α) (cur : Nat),
    (insFrontLoop c cur cnt).size_ = c.size_ ∧
    (insFrontLoop c cur cnt).capacity_ = c.capacity_ ∧
    (insFrontLoop c cur cnt).begin_ = c.begin_ ∧
    (insFrontLoop c cur cnt).data_.length = c.data_.length := by
  intro cnt
  induction cnt with
  | zero => intro c cur; exact ⟨rfl, rfl, rfl, rfl⟩
  | succ cnt ih =>
    intro c cur
    have h := ih (swapAt c cur (cur + 1)) (cur + 1)
    simpa [insFrontLoop, swapAt_size, swapAt_capacity, swapAt_begin, swapAt_data_length]
      using h

theorem insBackLoop_fields : ∀ (cnt : Nat) (c : circular_buffer α) (cur : Nat),
    (insBackLoop c cur cnt).size_ = c.size_ ∧
    (insBackLoop c cur cnt).capacity_ = c.capacity_ ∧
    (insBackLoop c cur cnt).begin_ = c.begin_ ∧
    (insBackLoop c cur cnt).data_.length = c.data_.length := by
  intro cnt
  induction cnt with
  | zero => intro c cur; exact ⟨rfl, rfl, rfl, rfl⟩
  | succ cnt ih =>
    intro c cur
    have h := ih (swapAt c cur (cur - 1)) (cur - 1)
    simpa [insBackLoop, swapAt_size, swapAt_capacity, swapAt_begin, swapAt_data_length]
      using h

theorem eraseFrontLoop_fields : ∀ (f : Nat) (c : circular_buffer α) (m : Nat),
    (eraseFrontLoop c f m).size_ = c.size_ ∧
    (eraseFrontLoop c f m).capacity_ = c.capacity_ ∧
    (eraseFrontLoop c f m).begin_ = c.begin_ ∧
    (eraseFrontLoop c f m).data_.length = c.data_.length := by
  intro f
  induction f with
  | zero => intro c m; exact ⟨rfl, rfl, rfl, rfl⟩
  | succ f ih =>
    intro c m
    have h := ih (swapAt c f (f + m)) m
    simpa [eraseFrontLoop, swapAt_size, swapAt_capacity, swapAt_begin, swapAt_data_length]
      using h

theorem eraseBackLoop_fields : ∀ (cnt : Nat) (c : circular_buffer α) (j m : Nat),
    (eraseBackLoop c j cnt m).size_ = c.size_ ∧
    (eraseBackLoop c j cnt m).capacity_ = c.capacity_ ∧
    (eraseBackLoop c j cnt m).begin_ = c.begin_ ∧
    (eraseBackLoop c j cnt m).data_.length = c.data_.length := by
  intro cnt
  induction cnt with
  | zero => intro c j m; exact ⟨rfl, rfl, rfl, rfl⟩
  | succ cnt ih =>
    intro c j m
    have h := ih (swapAt c j (j + m)) (j + 1) m
    simpa [eraseBackLoop, swapAt_size, swapAt_capacity, swapAt_begin, swapAt_data_length]
      using h

theorem insFrontLoop_logical : ∀ (cnt : Nat) (c : circular_buffer α) (cur : Nat),
    c.data_.length = c.capacity_ → c.size_ ≤ c.capacity_ → cur + cnt < c.size_ →
    logical (insFrontLoop c cur cnt) = insFrontLoopL (logical c) cur cnt := by
  intro cnt
  induction cnt with
  | zero => intro c cur _ _ _; rfl
  | succ cnt ih =>
    intro c cur hlen hsz hbound
    have hcur : cur < c.size_ := by omega
    have hcur1 : cur + 1 < c.size_ := by omega
    have hstep : insFrontLoop c cur (cnt + 1) =
        insFrontLoop (swapAt c cur (cur + 1)) (cur + 1) cnt := rfl
    have hstepL : insFrontLoopL (logical c) cur (cnt + 1) =
        insFrontLoopL (lswap (logical c) cur (cur + 1)) (cur + 1) cnt := rfl
    rw [hstep, hstepL]
    rw [ih (swapAt c cur (cur + 1)) (cur + 1)
      (by rw [swapAt_data_length, swapAt_capacity]; exact hlen)
      (by rw [swapAt_size, swapAt_capacity]; exact hsz)
      (by rw [swapAt_size]; omega)]
    rw [swapAt_logical c cur (cur + 1) hlen hsz hcur hcur1]

theorem insBackLoop_logical : ∀ (cnt : Nat) (c : circular_buffer α) (cur : Nat),
    c.data_.length = c.capacity_ → c.size_ ≤ c.capacity_ →
    cur < c.size_ → cnt ≤ cur →
    logical (insBackLoop c cur cnt) = insBackLoopL (logical c) cur cnt := by
  intro cnt
  induction cnt with
  | zero => intro c cur _ _ _ _; rfl
  | succ cnt ih =>
    intro c cur hlen hsz hcur hcnt
    have hcur1 : cur - 1 < c.size_ := by omega
    have hstep : insBackLoop c cur (cnt + 1) =
        insBackLoop (swapAt c cur (cur - 1)) (cur - 1) cnt := rfl
    have hstepL : insBackLoopL (logical c) cur (cnt + 1) =
        insBackLoopL (lswap (logical c) cur (cur - 1)) (cur - 1) cnt := rfl
    rw [hstep, hstepL]
    rw [ih (swapAt c cur (cur - 1)) (cur - 1)
      (by rw [swapAt_data_length, swapAt_capacity]; exact hlen)
      (by rw [swapAt_size, swapAt_capacity]; exact hsz)
      (by rw [swapAt_size]; exact hcur1)
      (by omega)]
    rw [swapAt_logical c cur (cur - 1) hlen hsz hcur hcur1]

theorem eraseFrontLoop_logical : ∀ (f : Nat) (c : circular_buffer α) (m : Nat),
    c.data_.length = c.capacity_ → c.size_ ≤ c.capacity_ → f + m ≤ c.size_ →
    logical (eraseFrontLoop c f m) = eraseFrontLoopL (logical c) f m := by
  intro f
  induction f with
  | zero => intro c m _ _ _; rfl
  | succ f ih =>
    intro c m hlen hsz hbound
    have hf : f < c.size_ := by omega
    have hfm : f + m < c.size_ := by omega
    have hstep : eraseFrontLoop c (f + 1) m =
        eraseFrontLoop (swapAt c f (f + m)) f m := rfl
    have hstepL : eraseFrontLoopL (logical c) (f + 1) m =
        eraseFrontLoopL (lswap (logical c) f (f + m)) f m := rfl
    rw [hstep, hstepL]
    rw [ih (swapAt c f (f + m)) m
      (by rw [swapAt_data_length, swapAt_capacity]; exact hlen)
      (by rw [swapAt_size, swapAt_capacity]; exact hsz)
      (by rw [swapAt_size]; omega)]
    rw [swapAt_logical c f (f + m) hlen hsz hf hfm]

theorem eraseBackLoop_logical : ∀ (cnt : Nat) (c : circular_buffer α) (j m : Nat),
    c.data_.length = c.capacity_ → c.size_ ≤ c.capacity_ → j + cnt + m ≤ c.size_ →
    logical (eraseBackLoop c j cnt m) = eraseBackLoopL (logical c) j cnt m := by
  intro cnt
  induction cnt with
  | zero => intro c j m _ _ _; rfl
  | succ cnt ih =>
    intro c j m hlen hsz hbound
    have hj : j < c.size_ := by omega
    have hjm : j + m < c.size_ := by omega
    have hstep : eraseBackLoop c j (cnt + 1) m =
        eraseBackLoop (swapAt c j (j + m)) (j + 1) cnt m := rfl
    have hstepL : eraseBackLoopL (logical c) j (cnt + 1) m =
        eraseBackLoopL (lswap (logical c) j (j + m)) (j + 1) cnt m := rfl
    rw [hstep, hstepL]
    rw [ih (swapAt c j (j + m)) (j + 1) m
      (by rw [swapAt_data_length, swapAt_capacity]; exact hlen)
      (by rw [swapAt_size, swapAt_capacity]; exact hsz)
      (by rw [swapAt_size]; omega)]
    rw [swapAt_logical c j (j + m) hlen hsz hj hjm]


theorem push_back_logical (c : circular_buffer α) (v : α)
    (hlen : c.data_.length = c.capacity_) (hlt : c.size_ < c.capacity_) :
    logical (push_back c v) = logical c ++ [v] ∧
    (push_back c v).size_ = c.size_ + 1 ∧
    (push_back c v).capacity_ = c.capacity_ ∧
    (push_back c v).begin_ = c.begin_ ∧
    (push_back c v).data_.length = c.data_.length := by
  have hne : c.size_ ≠ c.capacity_ := Nat.ne_of_lt hlt
  have hcap : 0 < c.capacity_ := Nat.lt_of_le_of_lt (Nat.zero_le _) hlt
  have hc' : push_back c v =
      { c with data_ := c.data_.set ((c.begin_ + c.size_) % c.capacity_) v,
               size_ := c.size_ + 1 } := by
    unfold push_back
    rw [if_neg hne]
  refine ⟨?_, by rw [hc'], by rw [hc'], by rw [hc'], by rw [hc']; exact List.length_set _ _ _⟩
  rw [hc']
  apply eq_of_getD default
  · rw [logical_length]
    simp [logical_length]
  · intro t ht
    rw [logical_length] at ht
    rw [getD_logical _ (show t < _ from ht)]
    show (c.data_.set ((c.begin_ + c.size_) % c.capacity_) v).getD
        ((c.begin_ + t) % c.capacity_) default = (logical c ++ [v]).getD t default
    by_cases hts : t = c.size_
    · subst hts
      rw [getD_set_self _ _ (by rw [hlen]; exact Nat.mod_lt _ hcap)]
      have hL : (logical c).length = c.size_ := logical_length c
      rw [← hL]
      exact (getD_append_length (logical c) v [] default).symm
    · have ht' : t < c.size_ := by
        rcases Nat.lt_or_ge t c.size_ with h | h
        · exact h
        · exact absurd (Nat.le_antisymm (Nat.le_of_lt_succ ht) h).symm (fun hh => hts hh.symm)
      have hne2 : (c.begin_ + c.size_) % c.capacity_ ≠ (c.begin_ + t) % c.capacity_ :=
        fun h => hts (add_mod_inj hlt (Nat.lt_of_lt_of_le ht' (Nat.le_of_lt hlt)) h).symm
      rw [getD_set_ne _ _ hne2]
      rw [List.getD_append _ _ _ _ (by rw [logical_length]; exact ht')]
      exact (getD_logical c ht').symm

theorem push_front_logical (c : circular_buffer α) (v : α)
    (hlen : c.data_.length = c.capacity_) (hlt : c.size_ < c.capacity_) :
    logical (push_front c v) = v :: logical c ∧
    (push_front c v).size_ = c.size_ + 1 ∧
    (push_front c v).capacity_ = c.capacity_ ∧
    (push_front c v).begin_ = (c.begin_ + c.capacity_ - 1) % c.capacity_ ∧
    (push_front c v).data_.length = c.data_.length := by
  have hne : c.size_ ≠ c.capacity_ := Nat.ne_of_lt hlt
  have hcap : 0 < c.capacity_ := Nat.lt_of_le_of_lt (Nat.zero_le _) hlt
  have hnb : (c.begin_ + c.capacity_ - 1) % c.capacity_ < c.capacity_ :=
    Nat.mod_lt _ hcap
  have hc' : push_front c v =
      { c with data_ := c.data_.set ((c.begin_ + c.capacity_ - 1) % c.capacity_) v,
               begin_ := (c.begin_ + c.capacity_ - 1) % c.capacity_,
               size_ := c.size_ + 1 } := by
    unfold push_front
    rw [if_neg hne]
  refine ⟨?_, by rw [hc'], by rw [hc'], by rw [hc'],
    by rw [hc']; exact List.length_set _ _ _⟩
  rw [hc']
  apply eq_of_getD default
  · simp [logical_length]
  · intro t ht
    rw [logical_length] at ht
    rw [getD_logical _ ht]
    show (c.data_.set ((c.begin_ + c.capacity_ - 1) % c.capacity_) v).getD
        (((c.begin_ + c.capacity_ - 1) % c.capacity_ + t) % c.capacity_) default =
      (v :: logical c).getD t default
    cases t with
    | zero =>
      rw [Nat.add_zero, Nat.mod_eq_of_lt hnb]
      rw [getD_set_self _ _ (by rw [hlen]; exact hnb)]
      rfl
    | succ u =>
      have hu : u < c.size_ := Nat.lt_of_succ_lt_succ ht
      have hpos : ((c.begin_ + c.capacity_ - 1) % c.capacity_ + (u + 1)) % c.capacity_ =
          (c.begin_ + u) % c.capacity_ := by
        rw [Nat.mod_add_mod]
        have harith : c.begin_ + c.capacity_ - 1 + (u + 1) = c.begin_ + u + c.capacity_ := by
          omega
        rw [harith, Nat.add_mod_right]
      rw [hpos]
      have hne2 : (c.begin_ + c.capacity_ - 1) % c.capacity_ ≠ (c.begin_ + u) % c.capacity_ := by
        intro h
        have hb1 : c.begin_ + c.capacity_ - 1 = c.begin_ + (c.capacity_ - 1) := by omega
        rw [hb1] at h
        have := add_mod_inj (Nat.sub_lt hcap Nat.one_pos)
          (Nat.lt_of_lt_of_le hu (Nat.le_of_lt hlt)) h
        omega
      rw [getD_set_ne _ _ hne2]
      show c.data_.getD ((c.begin_ + u) % c.capacity_) default =
        (logical c).getD u default
      exact (getD_logical c hu).symm

theorem pop_front_logical (c : circular_buffer α)
    (hlen : c.data_.length = c.capacity_) (hsz : c.size_ ≤ c.capacity_)
    (hpos : 0 < c.size_) :
    logical (pop_front c) = (logical c).drop 1 := by
  apply eq_of_getD default
  · simp [logical_length, pop_front]
  · intro t ht
    rw [logical_length] at ht
    have hsz' : (pop_front c).size_ = c.size_ - 1 := rfl
    rw [hsz'] at ht
    rw [getD_logical _ (by rw [hsz']; exact ht)]
    show c.data_.getD (((c.begin_ + 1) % c.capacity_ + t) % c.capacity_) default =
      ((logical c).drop 1).getD t default
    rw [Nat.mod_add_mod, getD_drop]
    have h1t : c.begin_ + 1 + t = c.begin_ + (1 + t) := by omega
    rw [h1t]
    exact (getD_logical c (by omega)).symm

theorem popFrontN_spec : ∀ (m : Nat) (c : circular_buffer α),
    c.data_.length = c.capacity_ → c.size_ ≤ c.capacity_ → m ≤ c.size_ →
    logical (popFrontN c m) = (logical c).drop m ∧
    (popFrontN c m).size_ = c.size_ - m ∧
    (popFrontN c m).capacity_ = c.capacity_ ∧
    (popFrontN c m).data_ = c.data_ := by
  intro m
  induction m with
  | zero => intro c _ _ _; exact ⟨by simp [popFrontN], rfl, rfl, rfl⟩
  | succ m ih =>
    intro c hlen hsz hm
    have hpos : 0 < c.size_ := by omega
    have hstep : popFrontN c (m + 1) = popFrontN (pop_front c) m := rfl
    have hfields : (pop_front c).size_ = c.size_ - 1 ∧
        (pop_front c).capacity_ = c.capacity_ ∧ (pop_front c).data_ = c.data_ :=
      ⟨rfl, rfl, rfl⟩
    obtain ⟨ihl, ihs, ihc, ihd⟩ := ih (pop_front c)
      (by rw [hfields.2.2, hfields.2.1]; exact hlen)
      (by rw [hfields.1, hfields.2.1]; omega)
      (by rw [hfields.1]; omega)
    refine ⟨?_, ?_, ?_, ?_⟩
    · rw [hstep, ihl, pop_front_logical c hlen hsz hpos, List.drop_drop]
      congr 1
      omega
    · rw [hstep, ihs, hfields.1]; omega
    · rw [hstep, ihc, hfields.2.1]
    · rw [hstep, ihd, hfields.2.2]

theorem popBackN_eq : ∀ (m : Nat) (c : circular_buffer α),
    popBackN c m = { c with size_ := c.size_ - m } := by
  intro m
  induction m with
  | zero => intro c; rfl
  | succ m ih =>
    intro c
    show popBackN (pop_back c) m = _
    rw [ih (pop_back c)]
    show ({ c with size_ := c.size_ - 1 - m } : circular_buffer α) =
      { c with size_ := c.size_ - (m + 1) }
    have h : c.size_ - 1 - m = c.size_ - (m + 1) := by omega
    rw [h]

theorem logical_shrink (c : circular_buffer α) (s' : Nat) (h : s' ≤ c.size_) :
    logical { c with size_ := s' } = (logical c).take s' := by
  have h0 : logical { c with size_ := s' } = (List.range s').map (getIdx c) := rfl
  have h2 : List.range s' = (List.range c.size_).take s' := by
    rw [List.take_range]
    congr 1
    omega
  rw [h0, h2, List.map_take]
  rfl


theorem copyInto_length (dcap : Nat) : ∀ (vs : List α) (dst : List α) (dpos : Nat),
    (copyInto dst dcap dpos vs).length = dst.length := by
  intro vs
  induction vs with
  | nil => intro dst dpos; rfl
  | cons v vs ih =>
    intro dst dpos
    show (copyInto (dst.set (dpos % dcap) v) dcap (dpos + 1) vs).length = _
    rw [ih, List.length_set]

theorem copyInto_getD_untouched (dcap : Nat) (d : α) :
    ∀ (vs : List α) (dst : List α) (dpos q : Nat),
    (∀ u, u < vs.length → (dpos + u) % dcap ≠ q) →
    (copyInto dst dcap dpos vs).getD q d = dst.getD q d := by
  intro vs
  induction vs with
  | nil => intro dst dpos q _; rfl
  | cons v vs ih =>
    intro dst dpos q h
    show (copyInto (dst.set (dpos % dcap) v) dcap (dpos + 1) vs).getD q d = _
    rw [ih (dst.set (dpos % dcap) v) (dpos + 1) q
      (fun u hu => by
        have := h (u + 1) (by simpa using Nat.succ_lt_succ hu)
        rwa [show dpos + (u + 1) = dpos + 1 + u by omega] at this)]
    exact getD_set_ne _ _ (by simpa using h 0 (Nat.succ_pos _))

theorem copyInto_getD_at (dcap : Nat) (d : α) :
    ∀ (vs : List α) (dst : List α) (dpos : Nat),
    dst.length = dcap → vs.length ≤ dcap →
    ∀ u, u < vs.length →
    (copyInto dst dcap dpos vs).getD ((dpos + u) % dcap) d = vs.getD u d := by
  intro vs
  induction vs with
  | nil => intro dst dpos _ _ u hu; simp at hu
  | cons v vs ih =>
    intro dst dpos hdst hle u hu
    have hcap : 0 < dcap := Nat.lt_of_lt_of_le (Nat.succ_pos vs.length) hle
    cases u with
    | zero =>
      show (copyInto (dst.set (dpos % dcap) v) dcap (dpos + 1) vs).getD
          (dpos % dcap) d = v
      have huntouched : ∀ u, u < vs.length → (dpos + 1 + u) % dcap ≠ dpos % dcap := by
        intro w hw heq
        have h1w : 1 + w < dcap := by
          have hwl : w + 1 ≤ vs.length := hw
          have hvl : vs.length + 1 ≤ dcap := hle
          omega
        have heq2 : (dpos + (1 + w)) % dcap = (dpos + 0) % dcap := by
          rw [show dpos + (1 + w) = dpos + 1 + w from by omega]
          exact heq
        have := add_mod_inj h1w hcap heq2
        omega
      rw [copyInto_getD_untouched dcap d vs _ (dpos + 1) (dpos % dcap) huntouched]
      exact getD_set_self _ _ (by rw [hdst]; exact Nat.mod_lt _ hcap)
    | succ u =>
      show (copyInto (dst.set (dpos % dcap) v) dcap (dpos + 1) vs).getD
          ((dpos + (u + 1)) % dcap) d = vs.getD u d
      rw [show dpos + (u + 1) = dpos + 1 + u by omega]
      exact ih (dst.set (dpos % dcap) v) (dpos + 1)
        (by rw [List.length_set]; exact hdst)
        (Nat.le_of_succ_le hle) u (Nat.lt_of_succ_lt_succ hu)


theorem insert_with_copy_spec (c : circular_buffer α) (idx : Nat) (v : α)
    (hlen : c.data_.length = c.capacity_) (hsz : c.size_ ≤ c.capacity_)
    (hidx : idx ≤ c.size_) :
    logical (insert_with_copy c idx v).1 =
      (logical c).take idx ++ v :: (logical c).drop idx ∧
    (insert_with_copy c idx v).1.size_ = c.size_ + 1 ∧
    (insert_with_copy c idx v).1.capacity_ =
      (if c.capacity_ = 0 then 1 else c.capacity_ * 2) ∧
    (insert_with_copy c idx v).1.begin_ = 0 ∧
    (insert_with_copy c idx v).1.data_.length =
      (if c.capacity_ = 0 then 1 else c.capacity_ * 2) ∧
    (insert_with_copy c idx v).2 = idx := by
  have hP : c.size_ + 1 ≤ (if c.capacity_ = 0 then 1 else c.capacity_ * 2) := by
    by_cases h0 : c.capacity_ = 0
    · rw [if_pos h0]; omega
    · rw [if_neg h0]; omega
  have hexp : insert_with_copy c idx v =
      ({ data_ := copyInto
            ((copyInto (List.replicate (if c.capacity_ = 0 then 1 else c.capacity_ * 2) default)
                (if c.capacity_ = 0 then 1 else c.capacity_ * 2) 0 ((logical c).take idx)).set
              ((0 + idx) % (if c.capacity_ = 0 then 1 else c.capacity_ * 2)) v)
            (if c.capacity_ = 0 then 1 else c.capacity_ * 2) (idx + 1) ((logical c).drop idx),
          size_ := c.size_ + 1,
          capacity_ := (if c.capacity_ = 0 then 1 else c.capacity_ * 2),
          begin_ := 0 }, idx) := rfl
  rw [hexp]
  have hLlen : (logical c).length = c.size_ := logical_length c
  have htakeLen : ((logical c).take idx).length = idx := by
    rw [List.length_take, hLlen]; omega
  have hdropLen : ((logical c).drop idx).length = c.size_ - idx := by
    rw [List.length_drop, hLlen]
  have hidxP : idx < (if c.capacity_ = 0 then 1 else c.capacity_ * 2) := by omega
  have hD1len : (copyInto (List.replicate (if c.capacity_ = 0 then 1 else c.capacity_ * 2)
      default) (if c.capacity_ = 0 then 1 else c.capacity_ * 2) 0
      ((logical c).take idx)).length =
      (if c.capacity_ = 0 then 1 else c.capacity_ * 2) := by
    rw [copyInto_length, List.length_replicate]
  have hmod0idx : (0 + idx) % (if c.capacity_ = 0 then 1 else c.capacity_ * 2) = idx := by
    rw [Nat.zero_add]; exact Nat.mod_eq_of_lt hidxP
  refine ⟨?_, rfl, rfl, rfl, ?_, rfl⟩
  · apply eq_of_getD default
    · rw [logical_length]
      show c.size_ + 1 = _
      rw [List.length_append, List.length_cons, htakeLen, hdropLen]
      omega
    · intro t ht
      rw [logical_length] at ht
      have ht' : t < c.size_ + 1 := ht
      have htP : t < (if c.capacity_ = 0 then 1 else c.capacity_ * 2) := by omega
      rw [getD_logical _ ht]
      show (copyInto
            ((copyInto (List.replicate (if c.capacity_ = 0 then 1 else c.capacity_ * 2) default)
                (if c.capacity_ = 0 then 1 else c.capacity_ * 2) 0 ((logical c).take idx)).set
              ((0 + idx) % (if c.capacity_ = 0 then 1 else c.capacity_ * 2)) v)
            (if c.capacity_ = 0 then 1 else c.capacity_ * 2) (idx + 1)
            ((logical c).drop idx)).getD
          ((0 + t) % (if c.capacity_ = 0 then 1 else c.capacity_ * 2)) default =
        ((logical c).take idx ++ v :: (logical c).drop idx).getD t default
      rw [hmod0idx]
      rw [show (0 + t) % (if c.capacity_ = 0 then 1 else c.capacity_ * 2) = t from by
        rw [Nat.zero_add]; exact Nat.mod_eq_of_lt htP]
      rcases Nat.lt_trichotomy t idx with hcase | hcase | hcase
      · rw [copyInto_getD_untouched _ default _ _ (idx + 1) t
          (fun u hu heq => by
            rw [hdropLen] at hu
            rw [Nat.mod_eq_of_lt (by omega)] at heq
            omega)]
        rw [getD_set_ne _ _ (by omega)]
        have hat := copyInto_getD_at (if c.capacity_ = 0 then 1 else c.capacity_ * 2) default
          ((logical c).take idx) (List.replicate _ default) 0
          (by rw [List.length_replicate]) (by rw [htakeLen]; omega) t
          (by rw [htakeLen]; exact hcase)
        rw [show (0 + t) % (if c.capacity_ = 0 then 1 else c.capacity_ * 2) = t from by
          rw [Nat.zero_add]; exact Nat.mod_eq_of_lt htP] at hat
        rw [hat]
        rw [List.getD_append _ _ _ _ (by rw [htakeLen]; exact hcase)]
      · subst hcase
        rw [copyInto_getD_untouched _ default _ _ (t + 1) t
          (fun u hu heq => by
            rw [hdropLen] at hu
            rw [Nat.mod_eq_of_lt (by omega)] at heq
            omega)]
        rw [getD_set_self _ _ (by rw [hD1len]; exact htP)]
        rw [List.getD_append_right _ _ _ _ (by rw [htakeLen])]
        rw [htakeLen, Nat.sub_self]
        rfl
      · have hu : t - (idx + 1) < ((logical c).drop idx).length := by
          rw [hdropLen]; omega
        have hat := copyInto_getD_at (if c.capacity_ = 0 then 1 else c.capacity_ * 2) default
          ((logical c).drop idx)
          ((copyInto (List.replicate (if c.capacity_ = 0 then 1 else c.capacity_ * 2) default)
              (if c.capacity_ = 0 then 1 else c.capacity_ * 2) 0 ((logical c).take idx)).set idx v)
          (idx + 1)
          (by rw [List.length_set, hD1len]) (by rw [hdropLen]; omega)
          (t - (idx + 1)) hu
        rw [show idx + 1 + (t - (idx + 1)) = t from by omega] at hat
        rw [Nat.mod_eq_of_lt htP] at hat
        rw [hat]
        rw [List.getD_append_right _ _ _ _ (by rw [htakeLen]; omega)]
        rw [htakeLen]
        rw [show t - idx = (t - (idx + 1)) + 1 from by omega]
        rfl
  · show (copyInto
        ((copyInto (List.replicate (if c.capacity_ = 0 then 1 else c.capacity_ * 2) default)
            (if c.capacity_ = 0 then 1 else c.capacity_ * 2) 0 ((logical c).take idx)).set
          ((0 + idx) % (if c.capacity_ = 0 then 1 else c.capacity_ * 2)) v)
        (if c.capacity_ = 0 then 1 else c.capacity_ * 2) (idx + 1)
        ((logical c).drop idx)).length = _
    rw [copyInto_length, List.length_set, copyInto_length, List.length_replicate]

theorem reserve_noop (c : circular_buffer α) (n : Nat) (h : n ≤ c.capacity_) :
    reserve c n = c := by
  unfold reserve
  rw [if_neg (by omega)]

theorem reserve_grow (c : circular_buffer α) (n : Nat)
    (hlen : c.data_.length = c.capacity_) (hsz : c.size_ ≤ c.capacity_)
    (h : c.capacity_ < n) :
    logical (reserve c n) = logical c ∧
    (reserve c n).capacity_ = n ∧
    (reserve c n).size_ = c.size_ ∧
    (reserve c n).begin_ = 0 ∧
    (reserve c n).data_.length = n := by
  have hexp : reserve c n =
      { data_ := copyInto (List.replicate n default) n 0 (logical c),
        size_ := c.size_, capacity_ := n, begin_ := 0 } := by
    unfold reserve
    rw [if_pos (by omega)]
    rfl
  rw [hexp]
  refine ⟨?_, rfl, rfl, rfl, by rw [copyInto_length, List.length_replicate]⟩
  apply eq_of_getD default
  · rw [logical_length, logical_length]
  · intro t ht
    rw [logical_length] at ht
    have hts : t < c.size_ := ht
    rw [getD_logical _ ht]
    show (copyInto (List.replicate n default) n 0 (logical c)).getD
        ((0 + t) % n) default = (logical c).getD t default
    exact copyInto_getD_at n default (logical c) (List.replicate n default) 0
      (by rw [List.length_replicate]) (by rw [logical_length]; omega) t
      (by rw [logical_length]; exact hts)

theorem copy_construct_spec (c : circular_buffer α)
    (hlen : c.data_.length = c.capacity_) (hsz : c.size_ ≤ c.capacity_) :
    logical (copy_construct c) = logical c ∧
    (copy_construct c).capacity_ = c.capacity_ ∧
    (copy_construct c).begin_ = c.begin_ ∧
    (copy_construct c).size_ = c.size_ ∧
    (copy_construct c).data_.length = c.capacity_ := by
  have hexp : copy_construct c =
      { data_ := copyInto (List.replicate c.capacity_ default) c.capacity_ c.begin_ (logical c),
        size_ := c.size_, capacity_ := c.capacity_, begin_ := c.begin_ } := rfl
  rw [hexp]
  refine ⟨?_, rfl, rfl, rfl, by rw [copyInto_length, List.length_replicate]⟩
  apply eq_of_getD default
  · rw [logical_length, logical_length]
  · intro t ht
    rw [logical_length] at ht
    have hts : t < c.size_ := ht
    rw [getD_logical _ ht]
    show (copyInto (List.replicate c.capacity_ default) c.capacity_ c.begin_
        (logical c)).getD ((c.begin_ + t) % c.capacity_) default =
      (logical c).getD t default
    exact copyInto_getD_at c.capacity_ default (logical c)
      (List.replicate c.capacity_ default) c.begin_
      (by rw [List.length_replicate]) (by rw [logical_length]; omega) t
      (by rw [logical_length]; exact hts)


theorem eraseFrontLoop_zero : ∀ (f : Nat) (c : circular_buffer α),
    eraseFrontLoop c f 0 = c := by
  intro f
  induction f with
  | zero => intro c; rfl
  | succ f ih =>
    intro c
    show eraseFrontLoop (swapAt c f (f + 0)) f 0 = c
    have hdata : lswap c.data_ ((c.begin_ + f) % c.capacity_)
        ((c.begin_ + (f + 0)) % c.capacity_) = c.data_ := by
      rw [Nat.add_zero, lswap_self]
    have hsw : swapAt c f (f + 0) = c := by
      unfold swapAt
      rw [hdata]
    rw [hsw]
    exact ih c

theorem eraseBackLoop_zero : ∀ (cnt : Nat) (c : circular_buffer α) (j : Nat),
    eraseBackLoop c j cnt 0 = c := by
  intro cnt
  induction cnt with
  | zero => intro c j; rfl
  | succ cnt ih =>
    intro c j
    show eraseBackLoop (swapAt c j (j + 0)) (j + 1) cnt 0 = c
    have hdata : lswap c.data_ ((c.begin_ + j) % c.capacity_)
        ((c.begin_ + (j + 0)) % c.capacity_) = c.data_ := by
      rw [Nat.add_zero, lswap_self]
    have hsw : swapAt c j (j + 0) = c := by
      unfold swapAt
      rw [hdata]
    rw [hsw]
    exact ih c (j + 1)

theorem getD_insert_mid (L : List α) (v : α) (idx : Nat) (h : idx ≤ L.length) :
    (L.take idx ++ v :: L.drop idx).getD idx default = v := by
  rw [List.getD_append_right _ _ _ _ (by rw [List.length_take]; omega)]
  rw [List.length_take]
  rw [show idx - min idx L.length = 0 from by omega]
  rfl

/-- C10: erasing an empty range is a no-op: for every buffer and every
logical index k (position begin() + k), erase(pos, pos) leaves the state --
data, size, capacity and begin offset -- untouched (the loop only performs
self-swaps) and returns the iterator begin() + k at the same logical
index. -/
theorem spec_C10_erase_empty_range (c : circular_buffer α) (k : Nat) :
    erase c k 0 = (c, c.begin_ + k) := by
  unfold erase
  by_cases h : (k : ℤ) < (c.size_ : ℤ) - ((k + 0 : Nat) : ℤ)
  · rw [if_pos h, eraseFrontLoop_zero]
    rfl
  · rw [if_neg h, eraseBackLoop_zero]
    rfl

/-- C9: self-assignment is safe: the pointer guard this != &other makes
c = c a no-op, leaving the state (hence logical sequence, size, capacity
and begin offset) unchanged, with no block allocation. -/
theorem spec_C9_self_assignment (c : circular_buffer α) :
    copy_assign true c c = c ∧ copy_assign_allocs true c = 0 :=
  ⟨rfl, rfl⟩

/-- C5: reserve(n) with n at most capacity() is a no-op (the whole state is
unchanged); with n greater than capacity() it installs a block of exactly n
slots, puts the live run at physical offset 0 (begin offset 0) and keeps
the logical sequence and size. -/
theorem spec_C5_reserve (c : circular_buffer α) (n : Nat)
    (hlen : c.data_.length = c.capacity_) (hsz : c.size_ ≤ c.capacity_) :
    (n ≤ c.capacity_ → reserve c n = c) ∧
    (c.capacity_ < n →
      logical (reserve c n) = logical c ∧
      (reserve c n).capacity_ = n ∧
      (reserve c n).size_ = c.size_ ∧
      (reserve c n).begin_ = 0 ∧
      (reserve c n).data_.length = n) :=
  ⟨fun h => reserve_noop c n h, fun h => reserve_grow c n hlen hsz h⟩

theorem spec_C5_reserve_witness :
    ((7 : Nat) ≤ (⟨[1, 2, 3, 4], 3, 4, 2⟩ : circular_buffer Nat).capacity_ →
      reserve (⟨[1, 2, 3, 4], 3, 4, 2⟩ : circular_buffer Nat) 7 = ⟨[1, 2, 3, 4], 3, 4, 2⟩) ∧
    ((⟨[1, 2, 3, 4], 3, 4, 2⟩ : circular_buffer Nat).capacity_ < 7 →
      logical (reserve (⟨[1, 2, 3, 4], 3, 4, 2⟩ : circular_buffer Nat) 7) =
        logical (⟨[1, 2, 3, 4], 3, 4, 2⟩ : circular_buffer Nat) ∧
      (reserve (⟨[1, 2, 3, 4], 3, 4, 2⟩ : circular_buffer Nat) 7).capacity_ = 7 ∧
      (reserve (⟨[1, 2, 3, 4], 3, 4, 2⟩ : circular_buffer Nat) 7).size_ =
        (⟨[1, 2, 3, 4], 3, 4, 2⟩ : circular_buffer Nat).size_ ∧
      (reserve (⟨[1, 2, 3, 4], 3, 4, 2⟩ : circular_buffer Nat) 7).begin_ = 0 ∧
      (reserve (⟨[1, 2, 3, 4], 3, 4, 2⟩ : circular_buffer Nat) 7).data_.length = 7) :=
  spec_C5_reserve (⟨[1, 2, 3, 4], 3, 4, 2⟩ : circular_buffer Nat) 7 (by decide) (by decide)

/-- C6: copy construction yields a buffer with the same capacity, the same
begin offset (the live run is copied into the same physical slots) and the
same logical sequence and size, built in a fresh block of its own. -/
theorem spec_C6_copy_construct (c : circular_buffer α)
    (hlen : c.data_.length = c.capacity_) (hsz : c.size_ ≤ c.capacity_) :
    (copy_construct c).capacity_ = c.capacity_ ∧
    (copy_construct c).begin_ = c.begin_ ∧
    (copy_construct c).size_ = c.size_ ∧
    logical (copy_construct c) = logical c ∧
    (copy_construct c).data_.length = c.capacity_ := by
  obtain ⟨h1, h2, h3, h4, h5⟩ := copy_construct_spec c hlen hsz
  exact ⟨h2, h3, h4, h1, h5⟩

theorem spec_C6_copy_construct_witness :
    (copy_construct (⟨[1, 2, 3, 4], 3, 4, 2⟩ : circular_buffer Nat)).capacity_ =
      (⟨[1, 2, 3, 4], 3, 4, 2⟩ : circular_buffer Nat).capacity_ ∧
    (copy_construct (⟨[1, 2, 3, 4], 3, 4, 2⟩ : circular_buffer Nat)).begin_ =
      (⟨[1, 2, 3, 4], 3, 4, 2⟩ : circular_buffer Nat).begin_ ∧
    (copy_construct (⟨[1, 2, 3, 4], 3, 4, 2⟩ : circular_buffer Nat)).size_ =
      (⟨[1, 2, 3, 4], 3, 4, 2⟩ : circular_buffer Nat).size_ ∧
    logical (copy_construct (⟨[1, 2, 3, 4], 3, 4, 2⟩ : circular_buffer Nat)) =
      logical (⟨[1, 2, 3, 4], 3, 4, 2⟩ : circular_buffer Nat) ∧
    (copy_construct (⟨[1, 2, 3, 4], 3, 4, 2⟩ : circular_buffer Nat)).data_.length =
      (⟨[1, 2, 3, 4], 3, 4, 2⟩ : circular_buffer Nat).capacity_ :=
  spec_C6_copy_construct (⟨[1, 2, 3, 4], 3, 4, 2⟩ : circular_buffer Nat) (by decide) (by decide)


/-- C1: on a non-full buffer, insert at logical index idx (the position
begin() + idx, 0 at most idx at most size()) yields the logical sequence
with v inserted at index idx, pushes v onto the front end exactly when
idx < size() - idx (a tie goes to the back end, leaving begin_ unchanged),
and returns the iterator begin() + idx over the final state, which
dereferences to the inserted element at logical index idx. -/
theorem spec_C1_insert (c : circular_buffer α) (idx : Nat) (v : α)
    (hlen : c.data_.length = c.capacity_) (hlt : c.size_ < c.capacity_)
    (hidx : idx ≤ c.size_) :
    logical (insert c idx v).1 =
      (logical c).take idx ++ v :: (logical c).drop idx ∧
    (insert c idx v).1.size_ = c.size_ + 1 ∧
    (insert c idx v).1.capacity_ = c.capacity_ ∧
    (insertUsesFront c idx = true ↔ idx < c.size_ - idx) ∧
    (idx < c.size_ - idx →
      (insert c idx v).1.begin_ = (c.begin_ + c.capacity_ - 1) % c.capacity_) ∧
    (¬ idx < c.size_ - idx → (insert c idx v).1.begin_ = c.begin_) ∧
    (insert c idx v).2 = (insert c idx v).1.begin_ + idx ∧
    getIdx (insert c idx v).1 idx = v := by
  have hsz : c.size_ ≤ c.capacity_ := Nat.le_of_lt hlt
  have hne : c.size_ ≠ c.capacity_ := Nat.ne_of_lt hlt
  have hLlen : (logical c).length = c.size_ := logical_length c
  have hiff : insertUsesFront c idx = true ↔ idx < c.size_ - idx := by
    unfold insertUsesFront
    rw [decide_eq_true_iff]
    omega
  by_cases hcond : (idx : ℤ) < (c.size_ : ℤ) - (idx : ℤ)
  · -- front branch
    have hfr : idx < c.size_ - idx := by omega
    have hexp : insert c idx v =
        (insFrontLoop (push_front c v) 0 idx,
         (insFrontLoop (push_front c v) 0 idx).begin_ + idx) := by
      unfold insert
      rw [if_neg hne, if_pos hcond]
    obtain ⟨hpl, hps, hpc, hpb, hplen⟩ := push_front_logical c v hlen hlt
    have hWl : (push_front c v).data_.length = (push_front c v).capacity_ := by
      rw [hplen, hpc]; exact hlen
    have hWs : (push_front c v).size_ ≤ (push_front c v).capacity_ := by
      rw [hps, hpc]; omega
    have hbound : 0 + idx < (push_front c v).size_ := by rw [hps]; omega
    have hlog2 : logical (insFrontLoop (push_front c v) 0 idx) =
        (logical c).take idx ++ v :: (logical c).drop idx := by
      rw [insFrontLoop_logical idx (push_front c v) 0 hWl hWs hbound, hpl]
      have hspec := insFrontLoopL_spec idx ([] : List α) v (logical c)
        (by rw [hLlen]; omega)
      simpa using hspec
    obtain ⟨hfs, hfc, hfb, hflen⟩ := insFrontLoop_fields idx (push_front c v) 0
    refine ⟨?_, ?_, ?_, hiff, ?_, ?_, ?_, ?_⟩
    · rw [hexp]; exact hlog2
    · rw [hexp]; show (insFrontLoop (push_front c v) 0 idx).size_ = _
      rw [hfs, hps]
    · rw [hexp]; show (insFrontLoop (push_front c v) 0 idx).capacity_ = _
      rw [hfc, hpc]
    · intro _
      rw [hexp]; show (insFrontLoop (push_front c v) 0 idx).begin_ = _
      rw [hfb, hpb]
    · intro hcontra
      exact absurd hfr hcontra
    · rw [hexp]
    · rw [hexp]
      show getIdx (insFrontLoop (push_front c v) 0 idx) idx = v
      have hidx2 : idx < (insFrontLoop (push_front c v) 0 idx).size_ := by
        rw [hfs, hps]; omega
      rw [← getD_logical _ hidx2, hlog2]
      exact getD_insert_mid (logical c) v idx (by rw [hLlen]; omega)
  · -- back branch
    have hbk : ¬ idx < c.size_ - idx := by omega
    obtain ⟨hpl, hps, hpc, hpb, hplen⟩ := push_back_logical c v hlen hlt
    have harg1 : (push_back c v).size_ - 1 = c.size_ := by rw [hps]; omega
    have harg2 : (push_back c v).size_ - idx - 1 = c.size_ - idx := by rw [hps]; omega
    have hexp : insert c idx v =
        (insBackLoop (push_back c v) c.size_ (c.size_ - idx),
         (insBackLoop (push_back c v) c.size_ (c.size_ - idx)).begin_ + idx) := by
      unfold insert
      rw [if_neg hne, if_neg hcond]
      show (insBackLoop (push_back c v) ((push_back c v).size_ - 1)
          ((push_back c v).size_ - idx - 1),
        (insBackLoop (push_back c v) ((push_back c v).size_ - 1)
          ((push_back c v).size_ - idx - 1)).begin_ + idx) = _
      rw [harg1, harg2]
    have hWl : (push_back c v).data_.length = (push_back c v).capacity_ := by
      rw [hplen, hpc]; exact hlen
    have hWs : (push_back c v).size_ ≤ (push_back c v).capacity_ := by
      rw [hps, hpc]; omega
    have hcur : c.size_ < (push_back c v).size_ := by rw [hps]; omega
    have hlog2 : logical (insBackLoop (push_back c v) c.size_ (c.size_ - idx)) =
        (logical c).take idx ++ v :: (logical c).drop idx := by
      rw [insBackLoop_logical (c.size_ - idx) (push_back c v) c.size_ hWl hWs hcur
        (by omega), hpl]
      have hspec := insBackLoopL_spec (c.size_ - idx) (logical c) v ([] : List α)
        (by rw [hLlen]; omega)
      rw [hLlen] at hspec
      have hsub : c.size_ - (c.size_ - idx) = idx := by omega
      rw [hsub] at hspec
      rw [show logical c ++ [v] = logical c ++ v :: [] from rfl, hspec]
      simp
    obtain ⟨hfs, hfc, hfb, hflen⟩ :=
      insBackLoop_fields (c.size_ - idx) (push_back c v) c.size_
    refine ⟨?_, ?_, ?_, hiff, ?_, ?_, ?_, ?_⟩
    · rw [hexp]; exact hlog2
    · rw [hexp]; show (insBackLoop (push_back c v) c.size_ (c.size_ - idx)).size_ = _
      rw [hfs, hps]
    · rw [hexp]; show (insBackLoop (push_back c v) c.size_ (c.size_ - idx)).capacity_ = _
      rw [hfc, hpc]
    · intro hcontra
      exact absurd hcontra hbk
    · intro _
      rw [hexp]; show (insBackLoop (push_back c v) c.size_ (c.size_ - idx)).begin_ = _
      rw [hfb, hpb]
    · rw [hexp]
    · rw [hexp]
      show getIdx (insBackLoop (push_back c v) c.size_ (c.size_ - idx)) idx = v
      have hidx2 : idx < (insBackLoop (push_back c v) c.size_ (c.size_ - idx)).size_ := by
        rw [hfs, hps]; omega
      rw [← getD_logical _ hidx2, hlog2]
      exact getD_insert_mid (logical c) v idx (by rw [hLlen]; omega)

theorem spec_C1_insert_witness :
    logical (insert cb0 1 9).1 =
      (logical cb0).take 1 ++ 9 :: (logical cb0).drop 1 ∧
    (insert cb0 1 9).1.size_ = cb0.size_ + 1 ∧
    (insert cb0 1 9).1.capacity_ = cb0.capacity_ ∧
    (insertUsesFront cb0 1 = true ↔ 1 < cb0.size_ - 1) ∧
    (1 < cb0.size_ - 1 →
      (insert cb0 1 9).1.begin_ = (cb0.begin_ + cb0.capacity_ - 1) % cb0.capacity_) ∧
    (¬ 1 < cb0.size_ - 1 → (insert cb0 1 9).1.begin_ = cb0.begin_) ∧
    (insert cb0 1 9).2 = (insert cb0 1 9).1.begin_ + 1 ∧
    getIdx (insert cb0 1 9).1 1 = 9 :=
  spec_C1_insert cb0 1 9 (by decide) (by decide) (by decide)


/-- C2: erase of the range [begin() + k, begin() + k + m) removes exactly
those m elements, keeps the remaining elements in order (prefix before the
range, suffix after it), leaves the capacity unchanged, shrinks the size by
m and returns the iterator begin() + k over the final state, the position
of the element that followed the removed range. -/
theorem spec_C2_erase (c : circular_buffer α) (k m : Nat)
    (hlen : c.data_.length = c.capacity_) (hsz : c.size_ ≤ c.capacity_)
    (hkm : k + m ≤ c.size_) :
    logical (erase c k m).1 = (logical c).take k ++ (logical c).drop (k + m) ∧
    (erase c k m).1.capacity_ = c.capacity_ ∧
    (erase c k m).1.size_ = c.size_ - m ∧
    (erase c k m).2 = (erase c k m).1.begin_ + k := by
  have hLlen : (logical c).length = c.size_ := logical_length c
  have hA : ((logical c).take k).length = k := by
    rw [List.length_take, hLlen]; omega
  have hM : (((logical c).drop k).take m).length = m := by
    rw [List.length_take, List.length_drop, hLlen]; omega
  have hB : ((logical c).drop (k + m)).length = c.size_ - (k + m) := by
    rw [List.length_drop, hLlen]
  have hMB : ((logical c).drop k).take m ++ (logical c).drop (k + m) =
      (logical c).drop k := by
    have hdd : (logical c).drop (k + m) = ((logical c).drop k).drop m := by
      rw [List.drop_drop]
    rw [hdd]
    exact List.take_append_drop m ((logical c).drop k)
  have hDecomp : (logical c).take k ++ ((logical c).drop k).take m ++
      (logical c).drop (k + m) = logical c := by
    rw [List.append_assoc, hMB]
    exact List.take_append_drop k (logical c)
  by_cases hcond : (k : ℤ) < (c.size_ : ℤ) - ((k + m : Nat) : ℤ)
  · -- range is nearer the front: shift the prefix up and pop m from the front
    have hexp : erase c k m =
        (popFrontN (eraseFrontLoop c k m) m,
         (popFrontN (eraseFrontLoop c k m) m).begin_ + k) := by
      unfold erase
      rw [if_pos hcond]
    obtain ⟨M', hM'len, hM'⟩ := eraseFrontLoopL_spec ((logical c).take k)
      (((logical c).drop k).take m) ((logical c).drop (k + m))
    rw [hA, hM, hDecomp] at hM'
    have hL1 : logical (eraseFrontLoop c k m) =
        M' ++ ((logical c).take k ++ (logical c).drop (k + m)) := by
      rw [eraseFrontLoop_logical k c m hlen hsz hkm]
      exact hM'
    obtain ⟨hes, hec, heb, helen⟩ := eraseFrontLoop_fields k c m
    obtain ⟨hql, hqs, hqc, hqd⟩ := popFrontN_spec m (eraseFrontLoop c k m)
      (by rw [helen, hec]; exact hlen)
      (by rw [hes, hec]; exact hsz)
      (by rw [hes]; omega)
    refine ⟨?_, ?_, ?_, ?_⟩
    · rw [hexp]
      show logical (popFrontN (eraseFrontLoop c k m) m) = _
      rw [hql, hL1]
      rw [show m = M'.length from by rw [hM'len, hM]]
      exact List.drop_left M' _
    · rw [hexp]
      show (popFrontN (eraseFrontLoop c k m) m).capacity_ = _
      rw [hqc, hec]
    · rw [hexp]
      show (popFrontN (eraseFrontLoop c k m) m).size_ = _
      rw [hqs, hes]
    · rw [hexp]
  · -- range is nearer the back: shift the suffix down and pop m from the back
    have hexp : erase c k m =
        (popBackN (eraseBackLoop c k (c.size_ - (k + m)) m) m,
         (popBackN (eraseBackLoop c k (c.size_ - (k + m)) m) m).begin_ + k) := by
      unfold erase
      rw [if_neg hcond]
    obtain ⟨M', hM'len, hM'⟩ := eraseBackLoopL_spec ((logical c).drop (k + m))
      ((logical c).take k) (((logical c).drop k).take m)
    rw [hA, hM, hB, hDecomp] at hM'
    have hL1 : logical (eraseBackLoop c k (c.size_ - (k + m)) m) =
        ((logical c).take k ++ (logical c).drop (k + m)) ++ M' := by
      rw [eraseBackLoop_logical (c.size_ - (k + m)) c k m hlen hsz (by omega)]
      exact hM'
    obtain ⟨hes, hec, heb, helen⟩ := eraseBackLoop_fields (c.size_ - (k + m)) c k m
    have hshrink := popBackN_eq m (eraseBackLoop c k (c.size_ - (k + m)) m)
    have hABlen : ((logical c).take k ++ (logical c).drop (k + m)).length =
        c.size_ - m := by
      rw [List.length_append, hA, hB]; omega
    refine ⟨?_, ?_, ?_, ?_⟩
    · rw [hexp]
      show logical (popBackN (eraseBackLoop c k (c.size_ - (k + m)) m) m) = _
      rw [hshrink]
      rw [logical_shrink _ _ (by rw [hes]; omega)]
      rw [hes, hL1]
      rw [show c.size_ - m =
        ((logical c).take k ++ (logical c).drop (k + m)).length from hABlen.symm]
      exact List.take_left _ M'
    · rw [hexp]
      show (popBackN (eraseBackLoop c k (c.size_ - (k + m)) m) m).capacity_ = _
      rw [hshrink]
      exact hec
    · rw [hexp]
      show (popBackN (eraseBackLoop c k (c.size_ - (k + m)) m) m).size_ = _
      rw [hshrink]
      show (eraseBackLoop c k (c.size_ - (k + m)) m).size_ - m = _
      rw [hes]
    · rw [hexp]

theorem spec_C2_erase_witness :
    logical (erase cbFull 1 2).1 =
      (logical cbFull).take 1 ++ (logical cbFull).drop (1 + 2) ∧
    (erase cbFull 1 2).1.capacity_ = cbFull.capacity_ ∧
    (erase cbFull 1 2).1.size_ = cbFull.size_ - 2 ∧
    (erase cbFull 1 2).2 = (erase cbFull 1 2).1.begin_ + 1 :=
  spec_C2_erase cbFull 1 2 (by decide) (by decide) (by decide)


theorem pushSeq_inv : ∀ n : Nat,
    (pushSeq n).size_ = n ∧
    (pushSeq n).data_.length = (pushSeq n).capacity_ ∧
    n ≤ (pushSeq n).capacity_ ∧
    (n = 0 → (pushSeq n).capacity_ = 0) ∧
    (1 ≤ n → (pushSeq n).capacity_ < 2 * n ∧
      ∃ kk, (pushSeq n).capacity_ = 2 ^ kk) := by
  intro n
  induction n with
  | zero =>
    exact ⟨rfl, rfl, Nat.le_refl 0, fun _ => rfl, fun h => absurd h (by omega)⟩
  | succ n ih =>
    obtain ⟨ihs, ihlen, ihcap, ih0, ih1⟩ := ih
    have hstep : pushSeq (n + 1) = push_back (pushSeq n) n := rfl
    by_cases hfull : (pushSeq n).size_ = (pushSeq n).capacity_
    · have hgrow : push_back (pushSeq n) n =
          (insert_with_copy (pushSeq n) (pushSeq n).size_ n).1 := by
        unfold push_back
        rw [if_pos hfull]
      obtain ⟨_, hs2, hc2, _, hlen2, _⟩ := insert_with_copy_spec (pushSeq n)
        (pushSeq n).size_ n ihlen (Nat.le_of_eq hfull) (Nat.le_refl _)
      rw [hstep, hgrow]
      by_cases hn0 : n = 0
      · have hcap0 : (pushSeq n).capacity_ = 0 := ih0 hn0
        rw [if_pos hcap0] at hc2 hlen2
        subst hn0
        refine ⟨by rw [hs2, ihs], by rw [hlen2, hc2], by rw [hc2], ?_, ?_⟩
        · intro h; omega
        · intro _
          constructor
          · rw [hc2]; omega
          · exact ⟨0, by rw [hc2]; rfl⟩
      · have hcapn : (pushSeq n).capacity_ ≠ 0 := by
          intro h0
          have : (pushSeq n).size_ = 0 := by omega
          omega
        rw [if_neg hcapn] at hc2 hlen2
        have hn1 : 1 ≤ n := by omega
        obtain ⟨hlt2, kk, hpow⟩ := ih1 hn1
        have hcapeq : (pushSeq n).capacity_ = n := by omega
        refine ⟨by rw [hs2, ihs], by rw [hlen2, hc2], by rw [hc2]; omega, ?_, ?_⟩
        · intro h; omega
        · intro _
          constructor
          · rw [hc2]; omega
          · exact ⟨kk + 1, by rw [hc2, hpow, Nat.pow_succ]⟩
    · have hlt : (pushSeq n).size_ < (pushSeq n).capacity_ :=
        Nat.lt_of_le_of_ne (by omega) hfull
      obtain ⟨_, hs2, hc2, _, hlen2⟩ := push_back_logical (pushSeq n) n ihlen hlt
      have hn1 : 1 ≤ n := by
        by_contra hc
        have hn0 : n = 0 := by omega
        have := ih0 hn0
        omega
      obtain ⟨hlt2, kk, hpow⟩ := ih1 hn1
      rw [hstep]
      refine ⟨by rw [hs2, ihs], by rw [hlen2, ihlen, hc2], by rw [hc2]; omega, ?_, ?_⟩
      · intro h; omega
      · intro _
        exact ⟨by rw [hc2]; omega, kk, by rw [hc2, hpow]⟩

theorem insert_capacity_nonfull (c : circular_buffer α) (idx : Nat) (v : α)
    (hlen : c.data_.length = c.capacity_) (hlt : c.size_ < c.capacity_) :
    (insert c idx v).1.capacity_ = c.capacity_ := by
  have hne : c.size_ ≠ c.capacity_ := Nat.ne_of_lt hlt
  by_cases hcond : (idx : ℤ) < (c.size_ : ℤ) - (idx : ℤ)
  · have hexp : insert c idx v =
        (insFrontLoop (push_front c v) 0 idx,
         (insFrontLoop (push_front c v) 0 idx).begin_ + idx) := by
      unfold insert
      rw [if_neg hne, if_pos hcond]
    obtain ⟨_, _, hpc, _, _⟩ := push_front_logical c v hlen hlt
    obtain ⟨_, hfc, _, _⟩ := insFrontLoop_fields idx (push_front c v) 0
    rw [hexp]
    show (insFrontLoop (push_front c v) 0 idx).capacity_ = _
    rw [hfc, hpc]
  · obtain ⟨_, hps, hpc, _, _⟩ := push_back_logical c v hlen hlt
    have harg1 : (push_back c v).size_ - 1 = c.size_ := by rw [hps]; omega
    have harg2 : (push_back c v).size_ - idx - 1 = c.size_ - idx := by
      rw [hps]; omega
    have hexp : insert c idx v =
        (insBackLoop (push_back c v) c.size_ (c.size_ - idx),
         (insBackLoop (push_back c v) c.size_ (c.size_ - idx)).begin_ + idx) := by
      unfold insert
      rw [if_neg hne, if_neg hcond]
      show (insBackLoop (push_back c v) ((push_back c v).size_ - 1)
          ((push_back c v).size_ - idx - 1),
        (insBackLoop (push_back c v) ((push_back c v).size_ - 1)
          ((push_back c v).size_ - idx - 1)).begin_ + idx) = _
      rw [harg1, harg2]
    obtain ⟨_, hfc, _, _⟩ := insBackLoop_fields (c.size_ - idx) (push_back c v) c.size_
    rw [hexp]
    show (insBackLoop (push_back c v) c.size_ (c.size_ - idx)).capacity_ = _
    rw [hfc, hpc]

/-- C3: on every well-formed buffer, whenever a push_back, push_front or
positional insert triggers growth (size() = capacity()) the replacement
block has exactly max(1, 2*capacity()) slots, and when the buffer is not
full none of them changes the capacity, so growth occurs exactly at
size() = capacity(); consequently the default buffer has capacity 0, the
first push moves it to 1, and after n sequential pushes the capacity is
the least power of two at least n (characterized by
n at most capacity < 2n with capacity a power of two), giving the
sequence 1, 2, 4, 8, ... -/
theorem spec_C3_growth_sequence (c : circular_buffer α) (v : α) (idx n : Nat)
    (hlen : c.data_.length = c.capacity_) (hsz : c.size_ ≤ c.capacity_)
    (hidx : idx ≤ c.size_) :
    (c.size_ = c.capacity_ →
      (push_back c v).capacity_ = max 1 (2 * c.capacity_) ∧
      (push_front c v).capacity_ = max 1 (2 * c.capacity_) ∧
      (insert c idx v).1.capacity_ = max 1 (2 * c.capacity_)) ∧
    (c.size_ ≠ c.capacity_ →
      (push_back c v).capacity_ = c.capacity_ ∧
      (push_front c v).capacity_ = c.capacity_ ∧
      (insert c idx v).1.capacity_ = c.capacity_) ∧
    (pushSeq n).size_ = n ∧
    ((pushSeq n).size_ = (pushSeq n).capacity_ →
      (pushSeq (n + 1)).capacity_ = max 1 (2 * (pushSeq n).capacity_)) ∧
    ((pushSeq n).size_ ≠ (pushSeq n).capacity_ →
      (pushSeq (n + 1)).capacity_ = (pushSeq n).capacity_) ∧
    ((pushSeq (n + 1)).capacity_ ≠ (pushSeq n).capacity_ ↔
      (pushSeq n).size_ = (pushSeq n).capacity_) ∧
    (pushSeq 0).capacity_ = 0 ∧
    (pushSeq 1).capacity_ = 1 ∧
    (1 ≤ n → n ≤ (pushSeq n).capacity_ ∧ (pushSeq n).capacity_ < 2 * n ∧
      ∃ kk, (pushSeq n).capacity_ = 2 ^ kk) := by
  have hifmax : (if c.capacity_ = 0 then 1 else c.capacity_ * 2) =
      max 1 (2 * c.capacity_) := by
    by_cases h0 : c.capacity_ = 0
    · rw [if_pos h0, h0]
      decide
    · rw [if_neg h0]
      omega
  refine ⟨?_, ?_, ?_, ?_, ?_, ?_, ?_, ?_, ?_⟩
  · intro hfull
    have hpb : push_back c v = (insert_with_copy c c.size_ v).1 := by
      unfold push_back
      rw [if_pos hfull]
    have hpf : push_front c v = (insert_with_copy c 0 v).1 := by
      unfold push_front
      rw [if_pos hfull]
    have hins : insert c idx v = insert_with_copy c idx v := by
      unfold insert
      rw [if_pos hfull]
    refine ⟨?_, ?_, ?_⟩
    · rw [hpb]
      exact hifmax
    · rw [hpf]
      exact hifmax
    · rw [hins]
      exact hifmax
  · intro hne
    have hlt : c.size_ < c.capacity_ := Nat.lt_of_le_of_ne hsz hne
    obtain ⟨_, _, hbc, _, _⟩ := push_back_logical c v hlen hlt
    obtain ⟨_, _, hfc2, _, _⟩ := push_front_logical c v hlen hlt
    exact ⟨hbc, hfc2, insert_capacity_nonfull c idx v hlen hlt⟩
  · exact (pushSeq_inv n).1
  · intro hfull
    obtain ⟨hs, hplen, hpcap, hp0, hp1⟩ := pushSeq_inv n
    have hstep : pushSeq (n + 1) = push_back (pushSeq n) n := rfl
    have hgrow : push_back (pushSeq n) n =
        (insert_with_copy (pushSeq n) (pushSeq n).size_ n).1 := by
      unfold push_back
      rw [if_pos hfull]
    obtain ⟨_, _, hc2, _, _, _⟩ := insert_with_copy_spec (pushSeq n)
      (pushSeq n).size_ n hplen (Nat.le_of_eq hfull) (Nat.le_refl _)
    rw [hstep, hgrow, hc2]
    by_cases hcap0 : (pushSeq n).capacity_ = 0
    · rw [if_pos hcap0, hcap0]
      decide
    · rw [if_neg hcap0]
      omega
  · intro hnf
    obtain ⟨hs, hplen, hpcap, hp0, hp1⟩ := pushSeq_inv n
    have hlt : (pushSeq n).size_ < (pushSeq n).capacity_ :=
      Nat.lt_of_le_of_ne (by omega) hnf
    obtain ⟨_, _, hc2, _, _⟩ := push_back_logical (pushSeq n) n hplen hlt
    have hstep : pushSeq (n + 1) = push_back (pushSeq n) n := rfl
    rw [hstep, hc2]
  · obtain ⟨hs, hplen, hpcap, hp0, hp1⟩ := pushSeq_inv n
    have hstep : pushSeq (n + 1) = push_back (pushSeq n) n := rfl
    constructor
    · intro hne2
      by_contra hnf
      have hlt : (pushSeq n).size_ < (pushSeq n).capacity_ :=
        Nat.lt_of_le_of_ne (by omega) hnf
      obtain ⟨_, _, hc2, _, _⟩ := push_back_logical (pushSeq n) n hplen hlt
      exact hne2 (by rw [hstep, hc2])
    · intro hfull
      have hgrow : push_back (pushSeq n) n =
          (insert_with_copy (pushSeq n) (pushSeq n).size_ n).1 := by
        unfold push_back
        rw [if_pos hfull]
      obtain ⟨_, _, hc2, _, _, _⟩ := insert_with_copy_spec (pushSeq n)
        (pushSeq n).size_ n hplen (Nat.le_of_eq hfull) (Nat.le_refl _)
      rw [hstep, hgrow, hc2]
      by_cases hcap0 : (pushSeq n).capacity_ = 0
      · rw [if_pos hcap0, hcap0]
        omega
      · rw [if_neg hcap0]
        omega
  · rfl
  · decide
  · intro hn
    obtain ⟨hs, hplen, hpcap, hp0, hp1⟩ := pushSeq_inv n
    exact ⟨hpcap, hp1 hn⟩

theorem spec_C3_growth_sequence_witness :
    (push_back cbFull 7).capacity_ = max 1 (2 * cbFull.capacity_) ∧
    (push_front cbFull 7).capacity_ = max 1 (2 * cbFull.capacity_) ∧
    (insert cbFull 2 7).1.capacity_ = max 1 (2 * cbFull.capacity_) ∧
    (push_back cb0 7).capacity_ = cb0.capacity_ ∧
    (pushSeq 4).size_ = 4 ∧
    4 ≤ (pushSeq 4).capacity_ ∧
    (pushSeq 4).capacity_ < 8 ∧
    (∃ kk, (pushSeq 4).capacity_ = 2 ^ kk) ∧
    (pushSeq 5).capacity_ = max 1 (2 * (pushSeq 4).capacity_) := by
  obtain ⟨hfull, _, _, _, _, _, _, _, _⟩ :=
    spec_C3_growth_sequence cbFull 7 2 4 (by decide) (by decide) (by decide)
  obtain ⟨hb, hf, hi⟩ := hfull (by decide)
  obtain ⟨_, hnot, h1, h2, _, _, _, _, h7⟩ :=
    spec_C3_growth_sequence cb0 7 1 4 (by decide) (by decide) (by decide)
  obtain ⟨ha, hbnd, hc⟩ := h7 (by omega)
  exact ⟨hb, hf, hi, (hnot (by decide)).1, h1, ha, by omega, hc, h2 (by decide)⟩

theorem reverse_eq_last_cons (L : List α) (n : Nat) (h : L.length = n + 1) :
    L.reverse = L.getD n default :: (L.take n).reverse := by
  have hsplit : L = L.take n ++ L.drop n := (List.take_append_drop n L).symm
  have hdlen : (L.drop n).length = 1 := by rw [List.length_drop]; omega
  have hsing : L.drop n = [L.getD n default] := by
    cases hd : L.drop n with
    | nil => rw [hd] at hdlen; simp at hdlen
    | cons x xs =>
      have hxs : xs = [] := by
        rw [hd] at hdlen
        simpa using hdlen
      subst hxs
      have hx : x = L.getD n default := by
        have hgd := getD_drop L n 0 default
        rw [hd] at hgd
        simpa using hgd
      rw [hx]
  conv_lhs => rw [hsplit, hsing]
  simp

theorem clearTraceN_spec : ∀ (n : Nat) (c : circular_buffer α),
    c.size_ = n → c.data_.length = c.capacity_ → c.size_ ≤ c.capacity_ →
    clearTraceN c n = (logical c).reverse := by
  intro n
  induction n with
  | zero =>
    intro c h0 _ _
    have hlog : logical c = [] := by
      unfold logical
      rw [h0]
      rfl
    rw [hlog]
    rfl
  | succ n ih =>
    intro c hsize hlen hsz
    have hne : ¬ c.size_ = 0 := by omega
    show (if c.size_ = 0 then [] else backVal c :: clearTraceN (pop_back c) n) = _
    rw [if_neg hne]
    have hih := ih (pop_back c) (show c.size_ - 1 = n from by omega) hlen
      (show c.size_ - 1 ≤ c.capacity_ from by omega)
    rw [hih]
    have hplog : logical (pop_back c) = (logical c).take (c.size_ - 1) :=
      logical_shrink c (c.size_ - 1) (by omega)
    rw [hplog]
    have harg : c.begin_ + c.size_ - 1 = c.begin_ + n := by omega
    have hbv : backVal c = getIdx c n := by
      unfold backVal getIdx
      rw [harg]
    rw [hbv, reverse_eq_last_cons (logical c) n (by rw [logical_length]; omega)]
    rw [← getD_logical c (show n < c.size_ from by omega)]
    rw [show c.size_ - 1 = n from by omega]

/-- C7 counterexample: on the buffer with logical sequence [1, 2] the
destructor (clear then release) destroys the back element first: the
destruction trace is [2, 1], not the front-to-back order [1, 2] the claim
asserts. -/
theorem spec_C7_counterexample :
    logical cb2 = [1, 2] ∧
    (destruct cb2).1 = [2, 1] ∧
    (destruct cb2).1 ≠ logical cb2 := by decide

/-- C7 as amended: destruction destroys all live elements in back-to-front
order (the element at logical index size()-1 first, index 0 last; the trace
is the reverse of the logical sequence) and then releases the storage block
exactly once. -/
theorem spec_C7_destruct_order (c : circular_buffer α)
    (hlen : c.data_.length = c.capacity_) (hsz : c.size_ ≤ c.capacity_) :
    (destruct c).1 = (logical c).reverse ∧ (destruct c).2 = 1 := by
  refine ⟨?_, rfl⟩
  show clearTraceN c c.size_ = _
  exact clearTraceN_spec c.size_ c rfl hlen hsz

theorem spec_C7_destruct_order_witness :
    (destruct cb0).1 = (logical cb0).reverse ∧ (destruct cb0).2 = 1 :=
  spec_C7_destruct_order cb0 (by decide) (by decide)


theorem popFrontN_fields : ∀ (m : Nat) (c : circular_buffer α),
    (popFrontN c m).size_ = c.size_ - m ∧
    (popFrontN c m).capacity_ = c.capacity_ ∧
    (popFrontN c m).data_ = c.data_ := by
  intro m
  induction m with
  | zero => intro c; exact ⟨rfl, rfl, rfl⟩
  | succ m ih =>
    intro c
    have h := ih (pop_front c)
    show (popFrontN (pop_front c) m).size_ = c.size_ - (m + 1) ∧ _ ∧ _
    refine ⟨?_, h.2.1, h.2.2⟩
    rw [h.1]
    show c.size_ - 1 - m = _
    omega

theorem insert_wf (c : circular_buffer α) (idx : Nat) (v : α)
    (hlen : c.data_.length = c.capacity_) (hsz : c.size_ ≤ c.capacity_)
    (hidx : idx ≤ c.size_) :
    (insert c idx v).1.data_.length = (insert c idx v).1.capacity_ ∧
    (insert c idx v).1.size_ ≤ (insert c idx v).1.capacity_ := by
  by_cases hfull : c.size_ = c.capacity_
  · have hexp : insert c idx v = insert_with_copy c idx v := by
      unfold insert
      rw [if_pos hfull]
    obtain ⟨_, hs2, hc2, _, hlen2, _⟩ := insert_with_copy_spec c idx v hlen hsz hidx
    rw [hexp]
    refine ⟨by rw [hlen2, hc2], ?_⟩
    rw [hs2, hc2]
    by_cases h0 : c.capacity_ = 0
    · rw [if_pos h0]; omega
    · rw [if_neg h0]; omega
  · have hlt : c.size_ < c.capacity_ := Nat.lt_of_le_of_ne hsz hfull
    by_cases hcond : (idx : ℤ) < (c.size_ : ℤ) - (idx : ℤ)
    · have hexp : insert c idx v =
          (insFrontLoop (push_front c v) 0 idx,
           (insFrontLoop (push_front c v) 0 idx).begin_ + idx) := by
        unfold insert
        rw [if_neg hfull, if_pos hcond]
      obtain ⟨_, hps, hpc, _, hplen⟩ := push_front_logical c v hlen hlt
      obtain ⟨hfs, hfc, _, hflen⟩ := insFrontLoop_fields idx (push_front c v) 0
      rw [hexp]
      constructor
      · show (insFrontLoop (push_front c v) 0 idx).data_.length = _
        rw [hflen, hplen, hlen]
        show c.capacity_ = (insFrontLoop (push_front c v) 0 idx).capacity_
        rw [hfc, hpc]
      · show (insFrontLoop (push_front c v) 0 idx).size_ ≤ _
        rw [hfs, hps]
        show c.size_ + 1 ≤ (insFrontLoop (push_front c v) 0 idx).capacity_
        rw [hfc, hpc]
        omega
    · obtain ⟨_, hps, hpc, _, hplen⟩ := push_back_logical c v hlen hlt
      have harg1 : (push_back c v).size_ - 1 = c.size_ := by rw [hps]; omega
      have harg2 : (push_back c v).size_ - idx - 1 = c.size_ - idx := by
        rw [hps]; omega
      have hexp : insert c idx v =
          (insBackLoop (push_back c v) c.size_ (c.size_ - idx),
           (insBackLoop (push_back c v) c.size_ (c.size_ - idx)).begin_ + idx) := by
        unfold insert
        rw [if_neg hfull, if_neg hcond]
        show (insBackLoop (push_back c v) ((push_back c v).size_ - 1)
            ((push_back c v).size_ - idx - 1),
          (insBackLoop (push_back c v) ((push_back c v).size_ - 1)
            ((push_back c v).size_ - idx - 1)).begin_ + idx) = _
        rw [harg1, harg2]
      obtain ⟨hfs, hfc, _, hflen⟩ :=
        insBackLoop_fields (c.size_ - idx) (push_back c v) c.size_
      rw [hexp]
      constructor
      · show (insBackLoop (push_back c v) c.size_ (c.size_ - idx)).data_.length = _
        rw [hflen, hplen, hlen]
        show c.capacity_ = (insBackLoop (push_back c v) c.size_ (c.size_ - idx)).capacity_
        rw [hfc, hpc]
      · show (insBackLoop (push_back c v) c.size_ (c.size_ - idx)).size_ ≤ _
        rw [hfs, hps]
        show c.size_ + 1 ≤ (insBackLoop (push_back c v) c.size_ (c.size_ - idx)).capacity_
        rw [hfc, hpc]
        omega

theorem erase_wf (c : circular_buffer α) (k m : Nat)
    (hlen : c.data_.length = c.capacity_) (hsz : c.size_ ≤ c.capacity_)
    (hkm : k + m ≤ c.size_) :
    (erase c k m).1.data_.length = (erase c k m).1.capacity_ ∧
    (erase c k m).1.size_ ≤ (erase c k m).1.capacity_ := by
  by_cases hcond : (k : ℤ) < (c.size_ : ℤ) - ((k + m : Nat) : ℤ)
  · have hexp : erase c k m =
        (popFrontN (eraseFrontLoop c k m) m,
         (popFrontN (eraseFrontLoop c k m) m).begin_ + k) := by
      unfold erase
      rw [if_pos hcond]
    obtain ⟨hes, hec, _, helen⟩ := eraseFrontLoop_fields k c m
    obtain ⟨hqs, hqc, hqd⟩ := popFrontN_fields m (eraseFrontLoop c k m)
    rw [hexp]
    constructor
    · show (popFrontN (eraseFrontLoop c k m) m).data_.length = _
      rw [hqd, helen, hlen]
      show c.capacity_ = (popFrontN (eraseFrontLoop c k m) m).capacity_
      rw [hqc, hec]
    · show (popFrontN (eraseFrontLoop c k m) m).size_ ≤ _
      rw [hqs, hes]
      show c.size_ - m ≤ (popFrontN (eraseFrontLoop c k m) m).capacity_
      rw [hqc, hec]
      omega
  · have hexp : erase c k m =
        (popBackN (eraseBackLoop c k (c.size_ - (k + m)) m) m,
         (popBackN (eraseBackLoop c k (c.size_ - (k + m)) m) m).begin_ + k) := by
      unfold erase
      rw [if_neg hcond]
    obtain ⟨hes, hec, _, helen⟩ := eraseBackLoop_fields (c.size_ - (k + m)) c k m
    have hq := popBackN_eq m (eraseBackLoop c k (c.size_ - (k + m)) m)
    rw [hexp, hq]
    constructor
    · show (eraseBackLoop c k (c.size_ - (k + m)) m).data_.length = _
      rw [helen, hlen]
      show c.capacity_ = (eraseBackLoop c k (c.size_ - (k + m)) m).capacity_
      rw [hec]
    · show (eraseBackLoop c k (c.size_ - (k + m)) m).size_ - m ≤
        (eraseBackLoop c k (c.size_ - (k + m)) m).capacity_
      rw [hes, hec]
      omega

theorem reachable_wf (c : circular_buffer α) (h : Reachable c) : WF c := by
  induction h with
  | init => exact ⟨rfl, Nat.le_refl 0⟩
  | push_back_step c v _ ih =>
    obtain ⟨hlen, hsz⟩ := ih
    by_cases hfull : c.size_ = c.capacity_
    · have hgrow : push_back c v = (insert_with_copy c c.size_ v).1 := by
        unfold push_back
        rw [if_pos hfull]
      obtain ⟨_, hs2, hc2, _, hlen2, _⟩ :=
        insert_with_copy_spec c c.size_ v hlen hsz (Nat.le_refl _)
      rw [hgrow]
      refine ⟨by rw [hlen2, hc2], ?_⟩
      rw [hs2, hc2]
      by_cases h0 : c.capacity_ = 0
      · rw [if_pos h0]; omega
      · rw [if_neg h0]; omega
    · have hlt : c.size_ < c.capacity_ := Nat.lt_of_le_of_ne hsz hfull
      obtain ⟨_, hs2, hc2, _, hlen2⟩ := push_back_logical c v hlen hlt
      exact ⟨by rw [hlen2, hlen, hc2], by rw [hs2, hc2]; omega⟩
  | push_front_step c v _ ih =>
    obtain ⟨hlen, hsz⟩ := ih
    by_cases hfull : c.size_ = c.capacity_
    · have hgrow : push_front c v = (insert_with_copy c 0 v).1 := by
        unfold push_front
        rw [if_pos hfull]
      obtain ⟨_, hs2, hc2, _, hlen2, _⟩ :=
        insert_with_copy_spec c 0 v hlen hsz (Nat.zero_le _)
      rw [hgrow]
      refine ⟨by rw [hlen2, hc2], ?_⟩
      rw [hs2, hc2]
      by_cases h0 : c.capacity_ = 0
      · rw [if_pos h0]; omega
      · rw [if_neg h0]; omega
    · have hlt : c.size_ < c.capacity_ := Nat.lt_of_le_of_ne hsz hfull
      obtain ⟨_, hs2, hc2, _, hlen2⟩ := push_front_logical c v hlen hlt
      exact ⟨by rw [hlen2, hlen, hc2], by rw [hs2, hc2]; omega⟩
  | pop_back_step c _ hne ih =>
    obtain ⟨hlen, hsz⟩ := ih
    exact ⟨hlen, show c.size_ - 1 ≤ c.capacity_ from by omega⟩
  | pop_front_step c _ hne ih =>
    obtain ⟨hlen, hsz⟩ := ih
    exact ⟨hlen, show c.size_ - 1 ≤ c.capacity_ from by omega⟩
  | insert_step c idx v _ hidx ih =>
    exact insert_wf c idx v ih.1 ih.2 hidx
  | erase_step c k m _ hkm ih =>
    exact erase_wf c k m ih.1 ih.2 hkm
  | reserve_step c n _ ih =>
    obtain ⟨hlen, hsz⟩ := ih
    by_cases hn : n ≤ c.capacity_
    · rw [reserve_noop c n hn]
      exact ⟨hlen, hsz⟩
    · obtain ⟨_, hc2, hs2, _, hlen2⟩ := reserve_grow c n hlen hsz (by omega)
      exact ⟨by rw [hlen2, hc2], by rw [hs2, hc2]; omega⟩
  | clear_step c _ ih =>
    obtain ⟨hlen, hsz⟩ := ih
    unfold clear
    rw [popBackN_eq]
    exact ⟨hlen, show c.size_ - c.size_ ≤ c.capacity_ from by omega⟩
  | copy_step c _ ih =>
    obtain ⟨hlen, hsz⟩ := ih
    obtain ⟨_, hc2, _, hs2, hlen2⟩ := copy_construct_spec c hlen hsz
    exact ⟨by rw [hlen2, hc2], by rw [hs2, hc2]; omega⟩
  | assign_step c other same _ _ ih1 ih2 =>
    cases same with
    | true =>
      show WF c
      exact ih1
    | false =>
      show WF (copy_construct other)
      obtain ⟨hlen, hsz⟩ := ih2
      obtain ⟨_, hc2, _, hs2, hlen2⟩ := copy_construct_spec other hlen hsz
      exact ⟨by rw [hlen2, hc2], by rw [hs2, hc2]; omega⟩

/-- C8: every state reachable from a default-constructed buffer by valid
public operations satisfies size() at most capacity(), and when
capacity() = 0 the buffer is empty and owns no block (null data). -/
theorem spec_C8_reachable_invariant (c : circular_buffer α) (h : Reachable c) :
    c.size_ ≤ c.capacity_ ∧ (c.capacity_ = 0 → c.size_ = 0 ∧ c.data_ = []) := by
  obtain ⟨hlen, hsz⟩ := reachable_wf c h
  refine ⟨hsz, fun h0 => ⟨by omega, ?_⟩⟩
  rw [h0] at hlen
  exact List.eq_nil_of_length_eq_zero hlen

theorem spec_C8_reachable_invariant_witness :
    (push_back (emptyCB : circular_buffer Nat) 5).size_ ≤
      (push_back (emptyCB : circular_buffer Nat) 5).capacity_ ∧
    ((push_back (emptyCB : circular_buffer Nat) 5).capacity_ = 0 →
      (push_back (emptyCB : circular_buffer Nat) 5).size_ = 0 ∧
      (push_back (emptyCB : circular_buffer Nat) 5).data_ = []) :=
  spec_C8_reachable_invariant (push_back emptyCB 5)
    (Reachable.push_back_step emptyCB 5 Reachable.init)


theorem copyIntoE_all (ok : α → Bool) (hok : ∀ a, ok a = true) (dcap : Nat) :
    ∀ (vs dst : List α) (dpos : Nat),
    copyIntoE ok dst dcap dpos vs = some (copyInto dst dcap dpos vs) := by
  intro vs
  induction vs with
  | nil => intro dst dpos; rfl
  | cons v vs ih =>
    intro dst dpos
    show (if ok v then copyIntoE ok (dst.set (dpos % dcap) v) dcap (dpos + 1) vs
        else none) = some (copyInto (dst.set (dpos % dcap) v) dcap (dpos + 1) vs)
    rw [hok v]
    simp only [if_true]
    exact ih _ _

theorem insert_with_copyE_error (allocOk : Nat → Bool) (ok : α → Bool)
    (c : circular_buffer α) (idx : Nat) (v : α) (e : circular_buffer α)
    (h : insert_with_copyE allocOk ok c idx v = .error e) : e = c := by
  unfold insert_with_copyE at h
  repeat' split at h
  all_goals
    first
      | (simp at h; exact h.symm)
      | simp at h

theorem push_backE_error (allocOk : Nat → Bool) (ok : α → Bool)
    (c : circular_buffer α) (v : α) (e : circular_buffer α)
    (h : push_backE allocOk ok c v = .error e) : e = c := by
  unfold push_backE at h
  by_cases hfull : c.size_ = c.capacity_
  · rw [if_pos hfull] at h
    cases hi : insert_with_copyE allocOk ok c c.size_ v with
    | error e2 =>
      rw [hi] at h
      simp [Except.map] at h
      rw [← h]
      exact insert_with_copyE_error allocOk ok c c.size_ v e2 hi
    | ok p =>
      rw [hi] at h
      simp [Except.map] at h
  · rw [if_neg hfull] at h
    by_cases hv : ok v = true
    · rw [if_pos hv] at h
      simp at h
    · rw [if_neg hv] at h
      simp at h
      exact h.symm

theorem push_frontE_error (allocOk : Nat → Bool) (ok : α → Bool)
    (c : circular_buffer α) (v : α) (e : circular_buffer α)
    (h : push_frontE allocOk ok c v = .error e) : e = c := by
  unfold push_frontE at h
  by_cases hfull : c.size_ = c.capacity_
  · rw [if_pos hfull] at h
    cases hi : insert_with_copyE allocOk ok c 0 v with
    | error e2 =>
      rw [hi] at h
      simp [Except.map] at h
      rw [← h]
      exact insert_with_copyE_error allocOk ok c 0 v e2 hi
    | ok p =>
      rw [hi] at h
      simp [Except.map] at h
  · rw [if_neg hfull] at h
    by_cases hv : ok v = true
    · rw [if_pos hv] at h
      simp at h
    · rw [if_neg hv] at h
      simp at h
      exact h.symm

theorem reserveE_error (allocOk : Nat → Bool) (ok : α → Bool)
    (c : circular_buffer α) (n : Nat) (e : circular_buffer α)
    (h : reserveE allocOk ok c n = .error e) : e = c := by
  unfold reserveE at h
  by_cases hn : n > c.capacity_
  · rw [if_pos hn] at h
    by_cases ha : allocOk n = true
    · rw [if_pos ha] at h
      cases h1 : copyIntoE ok (List.replicate n default) n 0 (logical c) with
      | none =>
        rw [h1] at h
        simp at h
        exact h.symm
      | some d =>
        rw [h1] at h
        simp at h
    · rw [if_neg ha] at h
      simp at h
      exact h.symm
  · rw [if_neg hn] at h
    simp at h

theorem insert_with_copyE_ok (allocOk : Nat → Bool) (ok : α → Bool)
    (hok : ∀ a, ok a = true) (halloc : ∀ m0, allocOk m0 = true)
    (c : circular_buffer α) (idx : Nat) (v : α) :
    insert_with_copyE allocOk ok c idx v = .ok (insert_with_copy c idx v) := by
  unfold insert_with_copyE
  rw [halloc _]
  simp only [if_true]
  rw [copyIntoE_all ok hok]
  rw [hok v]
  simp only [if_true]
  rw [copyIntoE_all ok hok]
  rfl

theorem push_backE_ok (allocOk : Nat → Bool) (ok : α → Bool)
    (hok : ∀ a, ok a = true) (halloc : ∀ m0, allocOk m0 = true)
    (c : circular_buffer α) (v : α) :
    push_backE allocOk ok c v = .ok (push_back c v) := by
  unfold push_backE push_back
  by_cases hfull : c.size_ = c.capacity_
  · rw [if_pos hfull, if_pos hfull]
    rw [insert_with_copyE_ok allocOk ok hok halloc]
    rfl
  · rw [if_neg hfull, if_neg hfull, hok v]
    simp only [if_true]

theorem push_frontE_ok (allocOk : Nat → Bool) (ok : α → Bool)
    (hok : ∀ a, ok a = true) (halloc : ∀ m0, allocOk m0 = true)
    (c : circular_buffer α) (v : α) :
    push_frontE allocOk ok c v = .ok (push_front c v) := by
  unfold push_frontE push_front
  by_cases hfull : c.size_ = c.capacity_
  · rw [if_pos hfull, if_pos hfull]
    rw [insert_with_copyE_ok allocOk ok hok halloc]
    rfl
  · rw [if_neg hfull, if_neg hfull, hok v]
    simp only [if_true]

theorem reserveE_ok (allocOk : Nat → Bool) (ok : α → Bool)
    (hok : ∀ a, ok a = true) (halloc : ∀ m0, allocOk m0 = true)
    (c : circular_buffer α) (n : Nat) :
    reserveE allocOk ok c n = .ok (reserve c n) := by
  unfold reserveE reserve
  by_cases hn : n > c.capacity_
  · rw [if_pos hn, if_pos hn, halloc n]
    simp only [if_true]
    rw [copyIntoE_all ok hok]
    rfl
  · rw [if_neg hn, if_neg hn]

/-- C4: push_back, push_front (in-place and growth paths) and reserve give
the strong exception guarantee: every failure of block allocation or of an
element copy-construction propagates out with the instance completely
unchanged, because all fallible steps precede any mutation of the instance
(the side buffer is swapped in only after they all succeed); when nothing
fails the operations agree with their plain semantics. -/
theorem spec_C4_strong_exception_guarantee (allocOk : Nat → Bool) (ok : α → Bool)
    (c : circular_buffer α) (v : α) (n : Nat) :
    (∀ e, push_backE allocOk ok c v = .error e → e = c) ∧
    (∀ e, push_frontE allocOk ok c v = .error e → e = c) ∧
    (∀ e, reserveE allocOk ok c n = .error e → e = c) ∧
    ((∀ a, ok a = true) → (∀ m0, allocOk m0 = true) →
      push_backE allocOk ok c v = .ok (push_back c v) ∧
      push_frontE allocOk ok c v = .ok (push_front c v) ∧
      reserveE allocOk ok c n = .ok (reserve c n)) :=
  ⟨fun e h => push_backE_error allocOk ok c v e h,
   fun e h => push_frontE_error allocOk ok c v e h,
   fun e h => reserveE_error allocOk ok c n e h,
   fun hok halloc =>
     ⟨push_backE_ok allocOk ok hok halloc c v,
      push_frontE_ok allocOk ok hok halloc c v,
      reserveE_ok allocOk ok hok halloc c n⟩⟩

theorem spec_C4_strong_exception_guarantee_witness :
    push_backE (fun _ => true) (fun _ => false) cb2 7 = .error cb2 ∧
    cb2 = cb2 ∧
    push_backE (fun _ => true) (fun _ => true) cb0 7 = .ok (push_back cb0 7) := by
  refine ⟨by rfl, ?_, ?_⟩
  · exact (spec_C4_strong_exception_guarantee (fun _ => true) (fun _ => false)
      cb2 7 0).1 cb2 (by rfl)
  · exact ((spec_C4_strong_exception_guarantee (fun _ => true) (fun _ => true)
      cb0 7 0).2.2.2 (fun _ => rfl) (fun _ => rfl)).1

end CircSpec
